import Mathlib

/-!
Verification development for the one-way folder synchronizer of
`jsfoldersync` (`src/foldersync.js`).

The filesystem is modelled as a finite tree (`FsTree`): a file carries its
content and a modification time, a directory carries a list of named
children, exactly the information the engine observes through its listing,
hashing, existence and copy collaborators.  Content hashing is an abstract
parameter `h : String -> String` (the code always passes SHA-256); the
engine compares digests for equality only, so every theorem below is
parametric in `h`.

`syncFolder` is the shallow embedding of `FolderSync._syncFolder`.  It
threads the destination tree explicitly (the source tree is read-only
input) and additionally records a trace of the filesystem operations the
JavaScript code would perform (`FsOp`), each tagged with the root
(source or destination) against which the code builds the operation's
path.  Errors are modelled for the structurally impossible operations
(listing a non-directory, `ensureDir` over a file, hashing a directory);
plain I/O failures of the collaborators are not modelled.

Relative paths are modelled as segment lists (`List String`): the
JavaScript `internal_folder_path` string `"/a/b"` corresponds to the
segment list `["a", "b"]`, and `path.join` corresponds to appending one
segment.  The candidate string handed to `minimatch` for the entry `n` of
the directory with relative path `rel` is `"/" ++ ...`, i.e. the segment
list `"" :: rel ++ [n]` once split on `"/"`.

`minimatch` is an external dependency; `mmatch` models its documented
core behaviour as configured by `foldersync.js` (`matchBase: true`):
a pattern without a path separator is matched against the basename of
the candidate, any other pattern is matched segment-wise against the
whole candidate, with `**` segments matching zero or more path segments
and `*` / `?` / `[...]` inside a segment.  Brace expansion, extglobs,
negation and comment patterns are outside the modelled core; none of the
claims depends on them.
-/

/-- Tokens of one glob segment: a literal character, `*`, `?`, or a
character class `[...]` given by its negation flag and its list of
(inclusive) character ranges. -/
inductive GTok where
  | lit (c : Char)
  | star
  | qmark
  | cls (neg : Bool) (items : List (Char × Char))
deriving DecidableEq

/-- Parse the body of a character class: `a-z` becomes the range
`(a, z)`, a lone character `c` becomes `(c, c)`. -/
def parseItems : List Char → List (Char × Char)
  | [] => []
  | a :: '-' :: b :: rest => (a, b) :: parseItems rest
  | a :: rest => (a, a) :: parseItems rest

mutual

/-- Tokenize one glob segment.  A `[` opens a character class (with an
optional leading `!` or `^` negation). -/
def tokenize : List Char → List GTok
  | [] => []
  | '*' :: rest => .star :: tokenize rest
  | '?' :: rest => .qmark :: tokenize rest
  | '[' :: '!' :: r => tokenizeCls true [] r
  | '[' :: '^' :: r => tokenizeCls true [] r
  | '[' :: rest => tokenizeCls false [] rest
  | c :: rest => .lit c :: tokenize rest

/-- Scan a character class up to the closing `]`.  An unclosed class is
approximated by literal characters (minimatch falls back to treating the
`[` literally). -/
def tokenizeCls : Bool → List Char → List Char → List GTok
  | _, acc, [] => .lit '[' :: acc.reverse.map .lit
  | neg, acc, ']' :: rest => .cls neg (parseItems acc.reverse) :: tokenize rest
  | neg, acc, c :: rest => tokenizeCls neg (c :: acc) rest

end

/-- Does a character fall in one of the ranges of a class body? -/
def inRanges (c : Char) (items : List (Char × Char)) : Bool :=
  items.any (fun pr => pr.1 ≤ c && c ≤ pr.2)

/-- Does one token match one character? -/
def tokChar : GTok → Char → Bool
  | .lit a, c => a = c
  | .star, _ => true
  | .qmark, _ => true
  | .cls neg items, c => if neg then !(inRanges c items) else inRanges c items

/-- Match a tokenized glob segment against the characters of one path
segment; `*` matches zero or more characters. -/
def tokMatch : List GTok → List Char → Bool
  | [], cs => cs.isEmpty
  | .star :: ps, cs => (cs.tails).any (fun suf => tokMatch ps suf)
  | _ :: _, [] => false
  | p :: ps, c :: cs => tokChar p c && tokMatch ps cs

/-- Split a string on `/` (the behaviour of `String.splitOn "/"`,
written structurally so that the kernel can evaluate it). -/
def splitAux (acc : List Char) : List Char → List String
  | [] => [acc.reverse.asString]
  | '/' :: rest => acc.reverse.asString :: splitAux [] rest
  | c :: rest => splitAux (c :: acc) rest

def splitSlash (s : String) : List String :=
  splitAux [] s.toList

def hasSlash (s : String) : Bool :=
  s.toList.any (fun c => c = '/')

/-- Match a list of glob segments against a list of path segments.  A
segment that is exactly `**` matches zero or more path segments. -/
def segsMatch : List String → List String → Bool
  | [], fs => fs.isEmpty
  | p :: ps, fs =>
    if p = "**" then (fs.tails).any (fun suf => segsMatch ps suf)
    else
      match fs with
      | [] => false
      | f :: fs' => tokMatch (tokenize p.toList) f.toList && segsMatch ps fs'

/-- Model of `minimatch(path, pattern, { matchBase: true })` on an
already-split candidate path (which, in this code, always has the shape
`"" :: rel ++ [name]` and hence always contains a separator): a pattern
without a separator is matched against the basename; any other pattern
is matched against the full candidate. -/
def mmatch (pat : String) (fsegs : List String) : Bool :=
  if hasSlash pat then segsMatch (splitSlash pat) fsegs
  else tokMatch (tokenize pat.toList) ((fsegs.getLast?).getD "").toList

/-- The candidate segments `isIgnoreFile` builds for the entry `n` of the
directory with root-relative path `rel`: the string
`path.join(internal_folder_path, n)` split on `/`. -/
def candSegs (rel : List String) (n : String) : List String :=
  "" :: (rel ++ [n])

/-- Embedding of `isIgnoreFile`: an `undefined` pattern list ignores
nothing, otherwise the first matching pattern returns `true`. -/
def isIgnored (globs : Option (List String)) (rel : List String) (n : String) : Bool :=
  match globs with
  | none => false
  | some gs => gs.any (fun g => mmatch g (candSegs rel n))

/-- A filesystem tree: a file with its content and modification time, or
a directory with named children.  The listing collaborator applied to a
`dir` returns its entries (name plus File/Directory kind). -/
inductive FsTree where
  | file (content : String) (mtime : Nat)
  | dir (entries : List (String × FsTree))

abbrev Entries := List (String × FsTree)

/-- Embedding of the `isFolder` check (`instanceof FolderInfo`). -/
def isDirT : FsTree → Bool
  | .file _ _ => false
  | .dir _ => true

/-- Embedding of `findFileInfoItemByFileName`: first entry with the given
name, i.e. the filesystem object at that path. -/
def findE (es : Entries) (n : String) : Option FsTree :=
  (es.find? (fun pr => pr.1 = n)).map (fun pr => pr.2)

def entryNames (es : Entries) : List String :=
  es.map (fun pr => pr.1)

/-- The filesystem after writing the object `v` at the name `n`:
replace the entry if present (names in one directory are unique on a
real filesystem), create it otherwise. -/
def setEntry (es : Entries) (n : String) (v : FsTree) : Entries :=
  match es with
  | [] => [(n, v)]
  | (m, e) :: rest => if m = n then (n, v) :: rest else (m, e) :: setEntry rest n v

/-- Which root a filesystem operation's path is joined from. -/
inductive Side where
  | src
  | dst
deriving DecidableEq

/-- One filesystem operation performed by the engine, tagged with the
root against which the JavaScript code builds its path and with the
root-relative path (as segments). -/
inductive FsOp where
  | listDir (side : Side) (p : List String)
  | ensureDir (side : Side) (p : List String)
  | removeEntry (side : Side) (p : List String)
  | hashFile (side : Side) (p : List String)
  | existsCheck (side : Side) (p : List String)
  | copyFile (fromSide : Side) (toSide : Side) (p : List String)
deriving DecidableEq

/-- The root-relative path an operation touches (for a copy, the shared
relative path of its source and target). -/
def FsOp.path : FsOp → List String
  | .listDir _ p => p
  | .ensureDir _ p => p
  | .removeEntry _ p => p
  | .hashFile _ p => p
  | .existsCheck _ p => p
  | .copyFile _ _ p => p

/-- The root an operation mutates, if it mutates one: `ensureDir` and
`remove` mutate the root they are joined from, a copy mutates its target
root; listing, hashing and existence checks mutate nothing. -/
def FsOp.mutSide : FsOp → Option Side
  | .listDir _ _ => none
  | .ensureDir s _ => some s
  | .removeEntry s _ => some s
  | .hashFile _ _ => none
  | .existsCheck _ _ => none
  | .copyFile _ t _ => some t

def FsOp.isCopy : FsOp → Bool
  | .copyFile _ _ _ => true
  | _ => false

def FsOp.isRemove : FsOp → Bool
  | .removeEntry _ _ => true
  | _ => false

/-- Errors of the structurally fallible collaborator calls. -/
inductive SyncErr where
  | listingError (p : List String)
  | ensureDirError (p : List String)
  | hashError (p : List String)
deriving DecidableEq

/-- Result of one (sub)tree synchronization: the destination object at
this path afterwards, the first error if any (fail-fast), and the trace
of performed operations. -/
structure SyncRes where
  dst : Option FsTree
  err : Option SyncErr
  trace : List FsOp

/-- Result of one intra-directory phase: the destination directory's
entries afterwards, the first error if any, and the trace. -/
structure StepRes where
  es : Entries
  err : Option SyncErr
  trace : List FsOp

/-- Embedding of `_updateFile`: hash the source file, check whether the
destination exists, copy if it does not, otherwise hash the destination
and copy only when the digests differ (`preserveTimestamps: true`, so a
copy transfers content and mtime).  Returns the written object when a
copy happened (`none` means the no-op branch), the error if any, and the
trace.  Hashing a missing path or a directory fails. -/
def updateFile (h : String → String) (srcE : Option FsTree) (dstE : Option FsTree)
    (p : List String) : Option FsTree × Option SyncErr × List FsOp :=
  match srcE with
  | some (.file c mt) =>
    match dstE with
    | none =>
      (some (.file c mt), none,
        [.hashFile .src p, .existsCheck .dst p, .copyFile .src .dst p])
    | some (.file c' _) =>
      if h c' = h c then
        (none, none, [.hashFile .src p, .existsCheck .dst p, .hashFile .dst p])
      else
        (some (.file c mt), none,
          [.hashFile .src p, .existsCheck .dst p, .hashFile .dst p,
            .copyFile .src .dst p])
    | some (.dir _) =>
      (none, some (.hashError p),
        [.hashFile .src p, .existsCheck .dst p, .hashFile .dst p])
  | _ => (none, some (.hashError p), [.hashFile .src p])

/-- Embedding of `processRemove` applied to the already-reversed removal
list (the JavaScript loop pops names from the end): each `fse.remove`
deletes the destination entry of that name. -/
def removeAll (names : List String) (es : Entries) (rel : List String) :
    Entries × List FsOp :=
  match names with
  | [] => (es, [])
  | n :: rest =>
    let es' := es.filter (fun pr => pr.1 ≠ n)
    let r := removeAll rest es' rel
    (r.1, .removeEntry .dst (rel ++ [n]) :: r.2)

/-- Embedding of `_updateFiles` applied to the already-reversed file
list: reconcile each named file of the source directory `ses` against
the current destination entries. -/
def syncFiles (h : String → String) (ses : Entries) (rel : List String) :
    List String → Entries → StepRes
  | [], es => ⟨es, none, []⟩
  | n :: rest, es =>
    let u := updateFile h (findE ses n) (findE es n) (rel ++ [n])
    match u.2.1 with
    | some e => ⟨es, some e, u.2.2⟩
    | none =>
      let es' := match u.1 with
        | some v => setEntry es n v
        | none => es
      let r := syncFiles h ses rel rest es'
      ⟨r.es, r.err, u.2.2 ++ r.trace⟩

/-- Embedding of the removal classification of `_syncFolder`: with
`deleteExtraneous` every destination entry whose name is absent from the
source or present with the other kind is marked, without it only the
kind-mismatch case is marked; in both branches an entry matching an
ignore pattern is left alone. -/
def toBeRemovedFileNames (de : Bool) (globs : Option (List String)) (rel : List String)
    (ses des : Entries) : List String :=
  if de then
    (des.filter (fun pr =>
      (match findE ses pr.1 with
        | none => true
        | some s => isDirT s != isDirT pr.2) && !isIgnored globs rel pr.1)).map (fun pr => pr.1)
  else
    (des.filter (fun pr =>
      (match findE ses pr.1 with
        | none => false
        | some s => isDirT s != isDirT pr.2) && !isIgnored globs rel pr.1)).map (fun pr => pr.1)

/-- Embedding of the `toBeAddedFileNames` classification: non-ignored
source file entries. -/
def toBeAddedFileNames (globs : Option (List String)) (rel : List String)
    (ses : Entries) : List String :=
  (ses.filter (fun pr => !isDirT pr.2 && !isIgnored globs rel pr.1)).map (fun pr => pr.1)

/-- Embedding of the `toBeAddedFolderNames` classification, kept as
(name, subtree) pairs: the JavaScript keeps the names and re-resolves
each joined path on disk, which in the tree model is exactly the paired
subtree. -/
def toBeAddedFolderPairs (globs : Option (List String)) (rel : List String)
    (ses : Entries) : Entries :=
  ses.filter (fun pr => isDirT pr.2 && !isIgnored globs rel pr.1)

lemma sizeOf_append (l1 l2 : Entries) : sizeOf (l1 ++ l2) + 1 = sizeOf l1 + sizeOf l2 := by
  induction l1 with
  | nil => simp; omega
  | cons a t ih => simp at ih ⊢; omega

lemma sizeOf_reverse (l : Entries) : sizeOf l.reverse = sizeOf l := by
  induction l with
  | nil => rfl
  | cons a t ih =>
    have hap := sizeOf_append t.reverse [a]
    simp at hap ⊢
    omega

lemma sizeOf_filter_le (p : String × FsTree → Bool) (l : Entries) :
    sizeOf (l.filter p) ≤ sizeOf l := by
  induction l with
  | nil => simp
  | cons a t ih =>
    by_cases hp : p a
    · simp [List.filter_cons, hp]; omega
    · simp [List.filter_cons, hp]; omega

mutual

/-- Embedding of `_syncFolder`: list the source directory, ensure the
destination directory exists, list it, classify, then remove, update
files and recurse, strictly in that order, failing fast on the first
error.  `rel` is the root-relative path of the visited directory. -/
def syncFolder (h : String → String) (de : Bool) (globs : Option (List String))
    (src : Option FsTree) (dst : Option FsTree) (rel : List String) : SyncRes :=
  match src with
  | none => ⟨dst, some (.listingError rel), [.listDir .src rel]⟩
  | some (.file _ _) => ⟨dst, some (.listingError rel), [.listDir .src rel]⟩
  | some (.dir ses) =>
    match dst with
    | some (.file _ _) =>
      ⟨dst, some (.ensureDirError rel), [.listDir .src rel, .ensureDir .dst rel]⟩
    | _ =>
      let des : Entries := match dst with
        | some (.dir es) => es
        | _ => []
      let header : List FsOp := [.listDir .src rel, .ensureDir .dst rel, .listDir .dst rel]
      let rm := removeAll (toBeRemovedFileNames de globs rel ses des).reverse des rel
      let fr := syncFiles h ses rel (toBeAddedFileNames globs rel ses).reverse rm.1
      match fr.err with
      | some e => ⟨some (.dir fr.es), some e, header ++ rm.2 ++ fr.trace⟩
      | none =>
        let cr := syncChildren h de globs (toBeAddedFolderPairs globs rel ses).reverse fr.es rel
        ⟨some (.dir cr.es), cr.err, header ++ rm.2 ++ fr.trace ++ cr.trace⟩
termination_by sizeOf src
decreasing_by
  simp only [toBeAddedFolderPairs, sizeOf_reverse]
  exact Nat.lt_of_le_of_lt (sizeOf_filter_le _ _) (by simp; omega)

/-- Embedding of `processUpdateFolders` applied to the already-reversed
folder list: recurse into each retained source subdirectory, against the
destination object of the same name, writing the resulting subtree back
into the destination entries. -/
def syncChildren (h : String → String) (de : Bool) (globs : Option (List String))
    (pairs : Entries) (des : Entries) (rel : List String) : StepRes :=
  match pairs with
  | [] => ⟨des, none, []⟩
  | (n, c) :: rest =>
    let r := syncFolder h de globs (some c) (findE des n) (rel ++ [n])
    let des' := match r.dst with
      | some t => setEntry des n t
      | none => des
    match r.err with
    | some e => ⟨des', some e, r.trace⟩
    | none =>
      let r2 := syncChildren h de globs rest des' rel
      ⟨r2.es, r2.err, r.trace ++ r2.trace⟩
termination_by sizeOf pairs
decreasing_by
  all_goals simp
  all_goals omega

end

/-- Embedding of `FolderSync.sync`: start the recursion at the relative
path `/` (the empty segment list). -/
def sync (h : String → String) (de : Bool) (globs : Option (List String))
    (src : Option FsTree) (dst : Option FsTree) : SyncRes :=
  syncFolder h de globs src dst []

/-- Is the path `q` equal to `p` or beneath it?  (Segment-list analogue
of "q is p, or starts with p followed by a separator".) -/
def isUnder (p q : List String) : Bool :=
  q.take p.length = p

/-- Names of one directory listing are pairwise distinct (true of every
real directory). -/
def distinctNames : Entries → Bool
  | [] => true
  | (n, _) :: rest => !(rest.any (fun pr => pr.1 = n)) && distinctNames rest

mutual

/-- A well-formed tree: every directory's names are distinct. -/
def wfb : FsTree → Bool
  | .file _ _ => true
  | .dir es => distinctNames es && wfbL es
termination_by t => sizeOf t
decreasing_by
  all_goals simp

def wfbL : Entries → Bool
  | [] => true
  | (_, t) :: rest => wfb t && wfbL rest
termination_by es => sizeOf es
decreasing_by
  all_goals simp
  all_goals omega

end

def wfbO : Option FsTree → Bool
  | none => true
  | some t => wfb t

/-- The digest of a tree object under the hash `h` (files only). -/
def digestOf (h : String → String) : FsTree → Option String
  | .file c _ => some (h c)
  | .dir _ => none

/-- A visible entry: root-relative path, directory flag, digest. -/
abbrev VisEntry := List String × Bool × Option String

mutual

/-- The non-ignored entries of a tree, with the pruned evaluation the
engine itself uses: an ignored directory hides its whole subtree. -/
def visibleEntries (h : String → String) (globs : Option (List String))
    (rel : List String) : FsTree → List VisEntry
  | .file _ _ => []
  | .dir es => visibleL h globs rel es
termination_by t => sizeOf t
decreasing_by
  all_goals simp

def visibleL (h : String → String) (globs : Option (List String))
    (rel : List String) : Entries → List VisEntry
  | [] => []
  | (n, e) :: rest =>
    (if isIgnored globs rel n then []
      else (rel ++ [n], isDirT e, digestOf h e) :: visibleEntries h globs (rel ++ [n]) e)
      ++ visibleL h globs rel rest
termination_by es => sizeOf es
decreasing_by
  all_goals simp
  all_goals omega

end

/-- The destination directory `des` mirrors the source directory `ses`
(both at relative path `rel`): every non-ignored source file has a
destination file of equal digest, every non-ignored source directory has
a mirroring destination directory, and every non-ignored destination
entry either has a source entry of the same kind or (only when
`deleteExtraneous` is false) no source entry at all. -/
inductive Synced (h : String → String) (de : Bool) (globs : Option (List String)) :
    List String → FsTree → FsTree → Prop where
  | mk (rel : List String) (ses des : Entries)
    (hfile : ∀ n c mt, (n, FsTree.file c mt) ∈ ses → isIgnored globs rel n = false →
      ∃ c' mt', findE des n = some (.file c' mt') ∧ h c' = h c)
    (hdirEx : ∀ n ces, (n, FsTree.dir ces) ∈ ses → isIgnored globs rel n = false →
      ∃ des', findE des n = some (.dir des'))
    (hdir : ∀ n ces des', (n, FsTree.dir ces) ∈ ses → isIgnored globs rel n = false →
      findE des n = some (.dir des') →
      Synced h de globs (rel ++ [n]) (.dir ces) (.dir des'))
    (hex : ∀ n e, (n, e) ∈ des → isIgnored globs rel n = false →
      (findE ses n = none → de = false) ∧
        (∀ s, findE ses n = some s → isDirT s = isDirT e))
    : Synced h de globs rel (.dir ses) (.dir des)

lemma findE_nil (n : String) : findE [] n = none := rfl

lemma findE_cons (m : String) (e : FsTree) (es : Entries) (n : String) :
    findE ((m, e) :: es) n = if m = n then some e else findE es n := by
  by_cases h : m = n <;> simp [findE, List.find?_cons, h]

lemma mem_of_findE {es : Entries} {n : String} {e : FsTree}
    (hf : findE es n = some e) : (n, e) ∈ es := by
  induction es with
  | nil => simp [findE] at hf
  | cons pr rest ih =>
    obtain ⟨m, f⟩ := pr
    rw [findE_cons] at hf
    by_cases h : m = n
    · simp [h] at hf
      simp [h, hf]
    · simp [h] at hf
      exact List.mem_cons_of_mem _ (ih hf)

lemma findE_eq_of_mem {es : Entries} {n : String} {e : FsTree}
    (hd : distinctNames es = true) (hm : (n, e) ∈ es) : findE es n = some e := by
  induction es with
  | nil => simp at hm
  | cons pr rest ih =>
    obtain ⟨m, f⟩ := pr
    simp only [distinctNames, Bool.and_eq_true, Bool.not_eq_true'] at hd
    rw [findE_cons]
    rcases List.mem_cons.mp hm with hh | ht
    · simp only [Prod.mk.injEq] at hh
      obtain ⟨h1, h2⟩ := hh
      subst h1
      subst h2
      simp
    · by_cases h : m = n
      · exfalso
        have : rest.any (fun pr => pr.1 = m) = true := by
          apply List.any_eq_true.mpr
          exact ⟨(n, e), ht, by simp [h]⟩
        simp [this] at hd
      · simp [h]
        exact ih hd.2 ht

lemma findE_none_iff (es : Entries) (n : String) :
    findE es n = none ↔ ∀ e, (n, e) ∉ es := by
  constructor
  · intro hf e hm
    induction es with
    | nil => simp at hm
    | cons pr rest ih =>
      obtain ⟨m, f⟩ := pr
      rw [findE_cons] at hf
      by_cases h : m = n
      · simp [h] at hf
      · simp [h] at hf
        rcases List.mem_cons.mp hm with hh | ht
        · exact h (congrArg Prod.fst hh).symm
        · exact ih hf ht
  · intro hall
    cases hf : findE es n with
    | none => rfl
    | some e => exact absurd (mem_of_findE hf) (hall e)

lemma findE_filter_name (q : String → Bool) (es : Entries) (n : String) :
    findE (es.filter (fun pr => q pr.1)) n = if q n then findE es n else none := by
  induction es with
  | nil => by_cases h : q n <;> simp [findE, h]
  | cons pr rest ih =>
    obtain ⟨m, f⟩ := pr
    by_cases hq : q m
    · rw [List.filter_cons_of_pos (by simpa using hq), findE_cons, findE_cons]
      by_cases h : m = n
      · subst h
        simp [hq]
      · simp [h, ih]
    · rw [List.filter_cons_of_neg (by simpa using hq), findE_cons, ih]
      by_cases h : m = n
      · subst h
        simp [hq]
      · simp [h]

lemma findE_setEntry_self (es : Entries) (n : String) (v : FsTree) :
    findE (setEntry es n v) n = some v := by
  induction es with
  | nil => simp [setEntry, findE_cons]
  | cons pr rest ih =>
    obtain ⟨m, e⟩ := pr
    by_cases h : m = n
    · simp [setEntry, h, findE_cons]
    · simp [setEntry, h, findE_cons, ih]

lemma findE_setEntry_ne (es : Entries) (n : String) (v : FsTree) (m : String)
    (hne : m ≠ n) : findE (setEntry es n v) m = findE es m := by
  have hnm : ¬(n = m) := fun h => hne h.symm
  induction es with
  | nil => simp [setEntry, findE_cons, findE, hnm]
  | cons pr rest ih =>
    obtain ⟨k, e⟩ := pr
    by_cases h : k = n
    · subst h
      simp [setEntry, findE_cons, hnm]
    · simp [setEntry, h, findE_cons, ih]

lemma setEntry_self {es : Entries} {n : String} {v : FsTree}
    (hf : findE es n = some v) : setEntry es n v = es := by
  induction es with
  | nil => simp [findE] at hf
  | cons pr rest ih =>
    obtain ⟨m, e⟩ := pr
    rw [findE_cons] at hf
    by_cases h : m = n
    · simp [h] at hf
      simp [setEntry, h, hf]
    · simp [h] at hf
      simp [setEntry, h, ih hf]

lemma name_of_mem_setEntry {es : Entries} {n : String} {v : FsTree} {pr : String × FsTree}
    (hm : pr ∈ setEntry es n v) : pr.1 = n ∨ ∃ e, (pr.1, e) ∈ es := by
  induction es with
  | nil =>
    simp [setEntry] at hm
    simp [hm]
  | cons q rest ih =>
    obtain ⟨k, f⟩ := q
    by_cases hk : k = n
    · simp only [setEntry, if_pos hk] at hm
      rcases List.mem_cons.mp hm with hh | ht
      · left
        simp [hh]
      · right
        exact ⟨pr.2, List.mem_cons_of_mem _ (by simpa using ht)⟩
    · simp only [setEntry, if_neg hk] at hm
      rcases List.mem_cons.mp hm with hh | ht
      · right
        refine ⟨f, ?_⟩
        subst hh
        exact List.mem_cons_self _ _
      · rcases ih ht with h1 | ⟨e, h2⟩
        · exact Or.inl h1
        · exact Or.inr ⟨e, List.mem_cons_of_mem _ h2⟩

lemma distinctNames_setEntry (es : Entries) (n : String) (v : FsTree)
    (hd : distinctNames es = true) : distinctNames (setEntry es n v) = true := by
  induction es with
  | nil => simp [setEntry, distinctNames]
  | cons pr rest ih =>
    obtain ⟨m, e⟩ := pr
    simp only [distinctNames, Bool.and_eq_true, Bool.not_eq_true'] at hd
    by_cases h : m = n
    · subst h
      simp only [setEntry, if_pos rfl]
      simp only [distinctNames, Bool.and_eq_true, Bool.not_eq_true']
      exact ⟨hd.1, hd.2⟩
    · simp only [setEntry, if_neg h]
      simp only [distinctNames, Bool.and_eq_true, Bool.not_eq_true']
      refine ⟨?_, ih hd.2⟩
      rw [List.any_eq_false] at hd ⊢
      intro pr hm
      rcases name_of_mem_setEntry hm with h1 | ⟨f, h2⟩
      · simp [h1]
        exact fun heq => h heq.symm
      · have := hd.1 (pr.1, f) h2
        simpa using this

lemma wfb_dir (es : Entries) :
    wfb (.dir es) = (distinctNames es && wfbL es) := by
  simp [wfb]

lemma wfbL_mem {es : Entries} {n : String} {e : FsTree}
    (hw : wfbL es = true) (hm : (n, e) ∈ es) : wfb e = true := by
  induction es with
  | nil => simp at hm
  | cons pr rest ih =>
    obtain ⟨m, f⟩ := pr
    rw [wfbL] at hw
    simp only [Bool.and_eq_true] at hw
    rcases List.mem_cons.mp hm with hh | ht
    · simp only [Prod.mk.injEq] at hh
      exact hh.2 ▸ hw.1
    · exact ih hw.2 ht

lemma wfbL_filter (p : String × FsTree → Bool) {es : Entries}
    (hw : wfbL es = true) : wfbL (es.filter p) = true := by
  induction es with
  | nil => simpa using hw
  | cons pr rest ih =>
    rw [wfbL] at hw
    simp only [Bool.and_eq_true] at hw
    by_cases hp : p pr
    · obtain ⟨m, f⟩ := pr
      rw [List.filter_cons_of_pos hp, wfbL]
      simp [hw.1, ih hw.2]
    · rw [List.filter_cons_of_neg (by simpa using hp)]
      exact ih hw.2

lemma distinctNames_filter (p : String × FsTree → Bool) {es : Entries}
    (hd : distinctNames es = true) : distinctNames (es.filter p) = true := by
  induction es with
  | nil => simpa using hd
  | cons pr rest ih =>
    obtain ⟨m, f⟩ := pr
    simp only [distinctNames, Bool.and_eq_true, Bool.not_eq_true'] at hd
    by_cases hp : p (m, f)
    · rw [List.filter_cons_of_pos hp]
      simp only [distinctNames, Bool.and_eq_true, Bool.not_eq_true']
      refine ⟨?_, ih hd.2⟩
      rw [List.any_eq_false] at hd ⊢
      have h1 := hd.1
      intro pr hm
      exact h1 pr (List.mem_of_mem_filter hm)
    · rw [List.filter_cons_of_neg (by simpa using hp)]
      exact ih hd.2

lemma wfbL_setEntry (es : Entries) (n : String) (v : FsTree)
    (hw : wfbL es = true) (hv : wfb v = true) : wfbL (setEntry es n v) = true := by
  induction es with
  | nil => simp [setEntry, wfbL, hv]
  | cons pr rest ih =>
    obtain ⟨m, e⟩ := pr
    rw [wfbL] at hw
    simp only [Bool.and_eq_true] at hw
    by_cases h : m = n
    · simp only [setEntry, if_pos h]
      rw [wfbL]
      simp [hv, hw.2]
    · simp only [setEntry, if_neg h]
      rw [wfbL]
      simp [hw.1, ih hw.2]

lemma distinct_entryNames {es : Entries} (hd : distinctNames es = true) :
    (entryNames es).Nodup := by
  induction es with
  | nil => simp [entryNames]
  | cons pr rest ih =>
    obtain ⟨m, f⟩ := pr
    simp only [distinctNames, Bool.and_eq_true, Bool.not_eq_true'] at hd
    rw [entryNames, List.map_cons]
    refine List.nodup_cons.mpr ⟨?_, ih hd.2⟩
    intro hmem
    rw [List.any_eq_false] at hd
    obtain ⟨pr2, hpr2, heq⟩ := List.mem_map.mp hmem
    have := hd.1 pr2 hpr2
    simp [heq] at this

lemma nodup_names_filter {es : Entries} (p : String × FsTree → Bool)
    (hd : distinctNames es = true) : (entryNames (es.filter p)).Nodup := by
  have hsub : List.Sublist (entryNames (es.filter p)) (entryNames es) :=
    (List.filter_sublist es).map _
  exact (distinct_entryNames hd).sublist hsub

lemma isUnder_iff (p q : List String) : isUnder p q = true ↔ ∃ r, q = p ++ r := by
  constructor
  · intro hu
    refine ⟨q.drop p.length, ?_⟩
    conv_lhs => rw [← List.take_append_drop p.length q]
    rw [isUnder] at hu
    rw [of_decide_eq_true hu]
  · rintro ⟨r, rfl⟩
    rw [isUnder]
    exact decide_eq_true (List.take_left p r)

lemma isUnder_refl (p : List String) : isUnder p p = true :=
  (isUnder_iff p p).mpr ⟨[], by simp⟩

lemma isUnder_append (p r : List String) : isUnder p (p ++ r) = true :=
  (isUnder_iff p (p ++ r)).mpr ⟨r, rfl⟩

lemma isUnder_trans {p q r : List String} (h1 : isUnder p q = true)
    (h2 : isUnder q r = true) : isUnder p r = true := by
  obtain ⟨a, rfl⟩ := (isUnder_iff p q).mp h1
  obtain ⟨b, rfl⟩ := (isUnder_iff (p ++ a) r).mp h2
  exact (isUnder_iff _ _).mpr ⟨a ++ b, by simp⟩

lemma isUnder_length {p q : List String} (h : isUnder p q = true) :
    p.length ≤ q.length := by
  obtain ⟨r, rfl⟩ := (isUnder_iff p q).mp h
  simp

lemma isUnder_eq_of_length {p1 p2 q : List String} (h1 : isUnder p1 q = true)
    (h2 : isUnder p2 q = true) (hl : p1.length = p2.length) : p1 = p2 := by
  obtain ⟨a, rfl⟩ := (isUnder_iff p1 q).mp h1
  obtain ⟨b, hb⟩ := (isUnder_iff p2 (p1 ++ a)).mp h2
  exact (List.append_inj hb.symm hl.symm).1.symm

lemma isUnder_child_disjoint {rel : List String} {n m : String} {q : List String}
    (hne : n ≠ m) (h1 : isUnder (rel ++ [n]) q = true) :
    isUnder (rel ++ [m]) q = false := by
  by_contra hc
  rw [Bool.not_eq_false] at hc
  have := isUnder_eq_of_length h1 hc (by simp)
  simp at this
  exact hne this

lemma not_isUnder_child_self {rel : List String} {n : String} :
    isUnder (rel ++ [n]) rel = false := by
  by_contra hc
  rw [Bool.not_eq_false] at hc
  have := isUnder_length hc
  simp at this

lemma removeAll_trace (L : List String) (es : Entries) (rel : List String) :
    (removeAll L es rel).2 = L.map (fun n => FsOp.removeEntry .dst (rel ++ [n])) := by
  induction L generalizing es with
  | nil => simp [removeAll]
  | cons n rest ih => simp [removeAll, ih]

lemma findE_removeAll (L : List String) (es : Entries) (rel : List String) (n : String) :
    findE (removeAll L es rel).1 n = if n ∈ L then none else findE es n := by
  induction L generalizing es with
  | nil => simp [removeAll]
  | cons m rest ih =>
    rw [removeAll]
    simp only
    rw [ih]
    have hfl := findE_filter_name (fun s => !decide (s = m)) es n
    by_cases h1 : n ∈ rest
    · simp [h1]
    · by_cases h2 : n = m
      · subst h2
        simp only [h1, if_false] at hfl ⊢
        simp at hfl
        simp [hfl]
      · simp only [h1, if_false] at hfl ⊢
        simp only [List.mem_cons, h2, h1, or_self, if_false]
        rw [if_pos (by simp [h2])] at hfl
        simpa using hfl

lemma mem_removeAll {L : List String} {es : Entries} {rel : List String}
    {pr : String × FsTree} :
    pr ∈ (removeAll L es rel).1 ↔ pr ∈ es ∧ pr.1 ∉ L := by
  induction L generalizing es with
  | nil => simp [removeAll]
  | cons m rest ih =>
    rw [removeAll]
    simp only [ih, List.mem_filter, List.mem_cons]
    constructor
    · rintro ⟨⟨hm, hnm⟩, hr⟩
      simp at hnm
      exact ⟨hm, by simp [hnm, hr]⟩
    · rintro ⟨hm, hn⟩
      simp at hn
      exact ⟨⟨hm, by simp [hn.1]⟩, hn.2⟩

lemma distinctNames_removeAll (L : List String) (es : Entries) (rel : List String)
    (hd : distinctNames es = true) : distinctNames (removeAll L es rel).1 = true := by
  induction L generalizing es with
  | nil => simpa [removeAll]
  | cons m rest ih =>
    rw [removeAll]
    exact ih _ (distinctNames_filter _ hd)

lemma wfbL_removeAll (L : List String) (es : Entries) (rel : List String)
    (hw : wfbL es = true) : wfbL (removeAll L es rel).1 = true := by
  induction L generalizing es with
  | nil => simpa [removeAll]
  | cons m rest ih =>
    rw [removeAll]
    exact ih _ (wfbL_filter _ hw)

lemma mem_toBeAddedFileNames {globs : Option (List String)} {rel : List String}
    {ses : Entries} {n : String} :
    n ∈ toBeAddedFileNames globs rel ses ↔
      ∃ e, (n, e) ∈ ses ∧ isDirT e = false ∧ isIgnored globs rel n = false := by
  rw [toBeAddedFileNames]
  simp only [List.mem_map, List.mem_filter]
  constructor
  · rintro ⟨⟨m, e⟩, ⟨hm, hp⟩, rfl⟩
    simp at hp
    exact ⟨e, hm, hp.1, hp.2⟩
  · rintro ⟨e, hm, h1, h2⟩
    exact ⟨(n, e), ⟨hm, by simp [h1, h2]⟩, rfl⟩

lemma mem_toBeAddedFolderPairs {globs : Option (List String)} {rel : List String}
    {ses : Entries} {pr : String × FsTree} :
    pr ∈ toBeAddedFolderPairs globs rel ses ↔
      pr ∈ ses ∧ isDirT pr.2 = true ∧ isIgnored globs rel pr.1 = false := by
  rw [toBeAddedFolderPairs]
  simp only [List.mem_filter]
  constructor
  · rintro ⟨hm, hp⟩
    simp at hp
    exact ⟨hm, hp.1, hp.2⟩
  · rintro ⟨hm, h1, h2⟩
    exact ⟨hm, by simp [h1, h2]⟩

lemma mem_toBeRemovedFileNames {de : Bool} {globs : Option (List String)}
    {rel : List String} {ses des : Entries} {n : String} :
    n ∈ toBeRemovedFileNames de globs rel ses des ↔
      ∃ e, (n, e) ∈ des ∧ isIgnored globs rel n = false ∧
        ((findE ses n = none ∧ de = true) ∨
          (∃ s, findE ses n = some s ∧ isDirT s ≠ isDirT e)) := by
  rw [toBeRemovedFileNames]
  by_cases hde : de
  · subst hde
    rw [if_pos rfl]
    simp only [List.mem_map, List.mem_filter]
    constructor
    · rintro ⟨⟨m, e⟩, ⟨hm, hp⟩, rfl⟩
      simp only [Bool.and_eq_true, Bool.not_eq_true'] at hp
      refine ⟨e, hm, hp.2, ?_⟩
      rcases hfs : findE ses m with _ | s
      · exact Or.inl ⟨rfl, by trivial⟩
      · refine Or.inr ⟨s, rfl, ?_⟩
        have := hp.1
        rw [hfs] at this
        simpa using this
    · rintro ⟨e, hm, hig, hcond⟩
      refine ⟨(n, e), ⟨hm, ?_⟩, rfl⟩
      simp only [Bool.and_eq_true, Bool.not_eq_true']
      refine ⟨?_, hig⟩
      rcases hcond with ⟨hnone, _⟩ | ⟨s, hsome, hne⟩
      · rw [hnone]
      · rw [hsome]
        simpa using hne
  · rw [if_neg hde]
    simp only [List.mem_map, List.mem_filter]
    have hde' : de = false := by simpa using hde
    constructor
    · rintro ⟨⟨m, e⟩, ⟨hm, hp⟩, rfl⟩
      simp only [Bool.and_eq_true, Bool.not_eq_true'] at hp
      refine ⟨e, hm, hp.2, ?_⟩
      rcases hfs : findE ses m with _ | s
      · rw [hfs] at hp
        simp at hp
      · refine Or.inr ⟨s, rfl, ?_⟩
        have := hp.1
        rw [hfs] at this
        simpa using this
    · rintro ⟨e, hm, hig, hcond⟩
      rcases hcond with ⟨_, habs⟩ | ⟨s, hsome, hne⟩
      · rw [habs] at hde'
        simp at hde'
      · refine ⟨(n, e), ⟨hm, ?_⟩, rfl⟩
        simp only [Bool.and_eq_true, Bool.not_eq_true']
        refine ⟨?_, hig⟩
        rw [hsome]
        simpa using hne

lemma syncFiles_ok (h : String → String) (ses : Entries) (rel : List String) :
    ∀ (L : List String) (es : Entries),
    (∀ n ∈ L, ∃ c mt, findE ses n = some (.file c mt)) →
    L.Nodup →
    (∀ n ∈ L, ∀ ces, findE es n ≠ some (.dir ces)) →
    (syncFiles h ses rel L es).err = none ∧
    (∀ m, m ∉ L → findE (syncFiles h ses rel L es).es m = findE es m) ∧
    (∀ n ∈ L, ∀ c mt, findE ses n = some (.file c mt) →
      ∃ c' mt', findE (syncFiles h ses rel L es).es n = some (.file c' mt') ∧ h c' = h c) ∧
    (distinctNames es = true → distinctNames (syncFiles h ses rel L es).es = true) ∧
    (wfbL es = true → wfbL (syncFiles h ses rel L es).es = true) := by
  intro L
  induction L with
  | nil =>
    intro es _ _ _
    refine ⟨rfl, fun m _ => rfl, fun n hn => absurd hn (List.not_mem_nil n), id, id⟩
  | cons n rest ih =>
    intro es hsrc hnd hdst
    obtain ⟨c, mt, hcmt⟩ := hsrc n (List.mem_cons_self n rest)
    have hnr : n ∉ rest := (List.nodup_cons.mp hnd).1
    have hndr : rest.Nodup := (List.nodup_cons.mp hnd).2
    -- the destination entry at n is absent or a file
    have hdst_n := hdst n (List.mem_cons_self n rest)
    -- one reconciliation step; es2 is the state afterwards
    have step : ∃ es2, syncFiles h ses rel (n :: rest) es =
        ⟨(syncFiles h ses rel rest es2).es, (syncFiles h ses rel rest es2).err,
          (updateFile h (findE ses n) (findE es n) (rel ++ [n])).2.2 ++
            (syncFiles h ses rel rest es2).trace⟩ ∧
        (∃ c' mt', findE es2 n = some (.file c' mt') ∧ h c' = h c) ∧
        (∀ m, m ≠ n → findE es2 m = findE es m) ∧
        (distinctNames es = true → distinctNames es2 = true) ∧
        (wfbL es = true → wfbL es2 = true) := by
      rcases hdstv : findE es n with _ | t
      · -- destination missing: copy
        refine ⟨setEntry es n (.file c mt), ?_, ?_, ?_, ?_, ?_⟩
        · simp [syncFiles, updateFile, hcmt, hdstv]
        · exact ⟨c, mt, findE_setEntry_self es n _, rfl⟩
        · exact fun m hm => findE_setEntry_ne es n _ m hm
        · exact fun hd => distinctNames_setEntry es n _ hd
        · exact fun hw => wfbL_setEntry es n _ hw (by simp [wfb])
      · rcases t with ⟨c', mt'⟩ | ces
        · by_cases heq : h c' = h c
          · -- digests equal: no write
            refine ⟨es, ?_, ⟨c', mt', hdstv, heq⟩, fun m _ => rfl, id, id⟩
            simp [syncFiles, updateFile, hcmt, hdstv, heq]
          · -- digests differ: overwrite
            refine ⟨setEntry es n (.file c mt), ?_, ?_, ?_, ?_, ?_⟩
            · simp [syncFiles, updateFile, hcmt, hdstv, heq]
            · exact ⟨c, mt, findE_setEntry_self es n _, rfl⟩
            · exact fun m hm => findE_setEntry_ne es n _ m hm
            · exact fun hd => distinctNames_setEntry es n _ hd
            · exact fun hw => wfbL_setEntry es n _ hw (by simp [wfb])
        · exact absurd hdstv (hdst_n ces)
    obtain ⟨es2, heq, hn2, hother, hd2, hw2⟩ := step
    have ihres := ih es2 (fun m hm => hsrc m (List.mem_cons_of_mem n hm)) hndr
      (fun m hm ces hcc => by
        have hm_ne : m ≠ n := fun hmn => hnr (hmn ▸ hm)
        rw [hother m hm_ne] at hcc
        exact hdst m (List.mem_cons_of_mem n hm) ces hcc)
    obtain ⟨iherr, ihother, ihrec, ihd, ihw⟩ := ihres
    rw [heq]
    refine ⟨iherr, ?_, ?_, fun hd => ihd (hd2 hd), fun hw => ihw (hw2 hw)⟩
    · intro m hm
      simp only [List.mem_cons] at hm
      push_neg at hm
      rw [ihother m hm.2]
      exact hother m hm.1
    · intro k hk c0 mt0 hk0
      rcases List.mem_cons.mp hk with hkn | hkr
      · subst hkn
        rw [hcmt] at hk0
        simp only [Option.some.injEq, FsTree.file.injEq] at hk0
        obtain ⟨hc0, _⟩ := hk0
        obtain ⟨c', mt', hf2, hh2⟩ := hn2
        rw [ihother k hnr, hf2]
        exact ⟨c', mt', rfl, hc0 ▸ hh2⟩
      · exact ihrec k hkr c0 mt0 hk0

lemma syncFiles_trace (h : String → String) (ses : Entries) (rel : List String) :
    ∀ (L : List String) (es : Entries), ∀ op ∈ (syncFiles h ses rel L es).trace,
    ∃ n, n ∈ L ∧
      (op = .hashFile .src (rel ++ [n]) ∨ op = .existsCheck .dst (rel ++ [n]) ∨
        op = .hashFile .dst (rel ++ [n]) ∨ op = .copyFile .src .dst (rel ++ [n])) := by
  intro L
  induction L with
  | nil => intro es op hop; simp [syncFiles] at hop
  | cons n rest ih =>
    intro es op hop
    have hup : ∀ op2 ∈ (updateFile h (findE ses n) (findE es n) (rel ++ [n])).2.2,
        op2 = FsOp.hashFile .src (rel ++ [n]) ∨ op2 = .existsCheck .dst (rel ++ [n]) ∨
          op2 = .hashFile .dst (rel ++ [n]) ∨ op2 = .copyFile .src .dst (rel ++ [n]) := by
      intro op2 hop2
      rcases hs : findE ses n with _ | t
      · rw [hs] at hop2
        simp [updateFile] at hop2
        simp [hop2]
      · rcases t with ⟨c, mt⟩ | ces
        · rcases hd : findE es n with _ | t2
          · rw [hs, hd] at hop2
            simp [updateFile] at hop2
            rcases hop2 with h1 | h1 | h1 <;> simp [h1]
          · rcases t2 with ⟨c', mt'⟩ | ces'
            · by_cases heq : h c' = h c
              · rw [hs, hd] at hop2
                simp [updateFile, heq] at hop2
                rcases hop2 with h1 | h1 | h1 <;> simp [h1]
              · rw [hs, hd] at hop2
                simp [updateFile, heq] at hop2
                rcases hop2 with h1 | h1 | h1 | h1 <;> simp [h1]
            · rw [hs, hd] at hop2
              simp [updateFile] at hop2
              rcases hop2 with h1 | h1 | h1 <;> simp [h1]
        · rw [hs] at hop2
          simp [updateFile] at hop2
          simp [hop2]
    rw [syncFiles] at hop
    simp only at hop
    rcases hu : (updateFile h (findE ses n) (findE es n) (rel ++ [n])).2.1 with _ | e
    · rw [hu] at hop
      simp only [List.mem_append] at hop
      rcases hop with h1 | h2
      · exact ⟨n, List.mem_cons_self n rest, hup op h1⟩
      · obtain ⟨m, hm, hform⟩ := ih _ op h2
        exact ⟨m, List.mem_cons_of_mem n hm, hform⟩
    · rw [hu] at hop
      simp only at hop
      exact ⟨n, List.mem_cons_self n rest, hup op hop⟩

lemma syncFiles_noop (h : String → String) (ses : Entries) (rel : List String) :
    ∀ (L : List String) (es : Entries),
    (∀ n ∈ L, ∃ c mt c' mt', findE ses n = some (.file c mt) ∧
      findE es n = some (.file c' mt') ∧ h c' = h c) →
    (syncFiles h ses rel L es).es = es ∧ (syncFiles h ses rel L es).err = none ∧
    ∀ op ∈ (syncFiles h ses rel L es).trace, op.isCopy = false := by
  intro L
  induction L with
  | nil =>
    intro es _
    exact ⟨rfl, rfl, by simp [syncFiles]⟩
  | cons n rest ih =>
    intro es hall
    obtain ⟨c, mt, c', mt', hs, hd, hh⟩ := hall n (List.mem_cons_self n rest)
    obtain ⟨ihes, iherr, ihtr⟩ := ih es (fun m hm => hall m (List.mem_cons_of_mem n hm))
    have hstep : syncFiles h ses rel (n :: rest) es =
        ⟨(syncFiles h ses rel rest es).es, (syncFiles h ses rel rest es).err,
          [FsOp.hashFile .src (rel ++ [n]), .existsCheck .dst (rel ++ [n]),
            .hashFile .dst (rel ++ [n])] ++ (syncFiles h ses rel rest es).trace⟩ := by
      simp [syncFiles, updateFile, hs, hd, hh]
    rw [hstep]
    refine ⟨ihes, iherr, ?_⟩
    intro op hop
    simp only [List.mem_append] at hop
    rcases hop with h1 | h2
    · simp at h1
      rcases h1 with h1 | h1 | h1 <;> simp [h1, FsOp.isCopy]
    · exact ihtr op h2

/-- C3: single-file reconciliation.  `_updateFile` copies the source when
the destination file does not exist; when it exists it compares the
digests (the code always passes SHA-256) and succeeds without writing
when they are equal, otherwise overwrites the destination with the
source content; and the decision is independent of the destination's
modification time (the model carries no size or permission data at all,
matching the fact that `_updateFile` never reads them: its only inputs
are the two hash results and the existence check). -/
theorem C3_updateFile (h : String → String) (c : String) (mt : Nat) (p : List String) :
    (updateFile h (some (.file c mt)) none p =
      (some (.file c mt), none,
        [.hashFile .src p, .existsCheck .dst p, .copyFile .src .dst p])) ∧
    (∀ c' mt', h c' = h c →
      updateFile h (some (.file c mt)) (some (.file c' mt')) p =
        (none, none, [.hashFile .src p, .existsCheck .dst p, .hashFile .dst p])) ∧
    (∀ c' mt', h c' ≠ h c →
      updateFile h (some (.file c mt)) (some (.file c' mt')) p =
        (some (.file c mt), none,
          [.hashFile .src p, .existsCheck .dst p, .hashFile .dst p,
            .copyFile .src .dst p])) ∧
    (∀ c' mt1 mt2,
      (updateFile h (some (.file c mt)) (some (.file c' mt1)) p).1 =
        (updateFile h (some (.file c mt)) (some (.file c' mt2)) p).1) := by
  refine ⟨by simp [updateFile], ?_, ?_, ?_⟩
  · intro c' mt' heq
    simp [updateFile, heq]
  · intro c' mt' hne
    simp [updateFile, hne]
  · intro c' mt1 mt2
    by_cases heq : h c' = h c <;> simp [updateFile, heq]

/-- Witness for C3 at concrete inputs: an existing destination file with
equal digest is left alone. -/
theorem C3_updateFile_witness :
    (fun s => s) "a" = (fun s => s) "a" ∧
    updateFile (fun s => s) (some (.file "a" 0)) (some (.file "a" 7)) [] =
      (none, none, [.hashFile .src [], .existsCheck .dst [], .hashFile .dst []]) :=
  ⟨rfl, (C3_updateFile (fun s => s) "a" 0 []).2.1 "a" 7 rfl⟩

/-- C4 counterexample: with `deleteExtraneous = false` the claim says a
same-name kind-mismatched destination entry is always marked for removal
("this conflict is always resolved"), with no ignore exception.  In the
code (line 245 of foldersync.js) the ignore guard also applies to this
branch: here the source has file `a`, the destination has directory `a`
(a kind mismatch), the pattern list ignores `a`, and nothing is marked. -/
theorem C4_counterexample :
    findE [("a", FsTree.file "x" 0)] "a" = some (.file "x" 0) ∧
    isDirT (FsTree.file "x" 0) ≠ isDirT (FsTree.dir []) ∧
    isIgnored (some ["a"]) [] "a" = true ∧
    toBeRemovedFileNames false (some ["a"]) []
      [("a", FsTree.file "x" 0)] [("a", FsTree.dir [])] = [] :=
  ⟨rfl, by decide, by decide, rfl⟩

/-- C4 (amended): a destination entry is marked for removal exactly when
it does not match an ignore pattern and either (`deleteExtraneous` is
true and) no same-name source entry exists, or a same-name source entry
exists with the other File/Directory kind — the ignore exception applies
to both values of `deleteExtraneous`. -/
theorem C4_removalClassification (de : Bool) (globs : Option (List String))
    (rel : List String) (ses des : Entries) (n : String) :
    n ∈ toBeRemovedFileNames de globs rel ses des ↔
      ∃ e, (n, e) ∈ des ∧ isIgnored globs rel n = false ∧
        ((findE ses n = none ∧ de = true) ∨
          (∃ s, findE ses n = some s ∧ isDirT s ≠ isDirT e)) :=
  mem_toBeRemovedFileNames

/-- C6: pattern-matching modes of `isIgnoreFile`.  A pattern without a
path separator is matched against the candidate's basename at whatever
depth the candidate sits (`frotz` matches both `/frotz` and
`/a/b/frotz`); a pattern with a separator must match the full
root-anchored candidate (`/dir3` matches a top-level `dir3` and not
`/dir1/dir3`); a matching pattern anywhere in the list makes the result
true. -/
theorem C6_patternModes :
    (∀ (pat : String) (rel : List String) (n : String), hasSlash pat = false →
      mmatch pat (candSegs rel n) = tokMatch (tokenize pat.toList) n.toList) ∧
    (isIgnored (some ["frotz"]) [] "frotz" = true ∧
      isIgnored (some ["frotz"]) ["a", "b"] "frotz" = true) ∧
    (isIgnored (some ["/dir3"]) [] "dir3" = true ∧
      isIgnored (some ["/dir3"]) ["dir1"] "dir3" = false) ∧
    (∀ (g : String) (gs : List String) (rel : List String) (n : String),
      mmatch g (candSegs rel n) = true → isIgnored (some (g :: gs)) rel n = true) := by
  refine ⟨?_, ⟨by decide, by decide⟩, ⟨by decide, by decide⟩, ?_⟩
  · intro pat rel n hs
    have hlast : (candSegs rel n).getLast? = some n := by
      rw [candSegs, ← List.cons_append]
      exact List.getLast?_concat _
    rw [mmatch, if_neg (by simp [hs]), hlast]
    rfl
  · intro g gs rel n hg
    simp [isIgnored, hg]

/-- Witness for C6 at concrete inputs: `a?c` has no separator, so it is
matched against the basename wherever the candidate sits. -/
theorem C6_patternModes_witness :
    hasSlash "a?c" = false ∧
    mmatch "a?c" (candSegs ["x", "y"] "abc") =
      tokMatch (tokenize ("a?c".toList)) ("abc".toList) :=
  ⟨rfl, C6_patternModes.1 "a?c" ["x", "y"] "abc" rfl⟩

/-- C8 (code bug): a trailing `/` in a pattern is documented (both in the
specification and in the code's own doc comment, foldersync.js line 38)
to restrict the match to directory-kind entries.  The engine, however,
never passes the entry kind to the matcher, and the candidate path it
builds never carries a trailing slash, while minimatch only matches a
trailing-slash pattern against a path that itself ends in `/`; so a
trailing-slash pattern matches nothing at all.  Here the pattern list
`["frotz/"]` fails to ignore the directory `frotz`: the directory is
retained for recursion and is synced to the destination. -/
theorem C8_trailingSlash :
    isIgnored (some ["frotz/"]) [] "frotz" = false ∧
    isIgnored (some ["frotz/"]) ["a"] "frotz" = false ∧
    toBeAddedFolderPairs (some ["frotz/"]) [] [("frotz", FsTree.dir [])] =
      [("frotz", FsTree.dir [])] ∧
    (sync (fun s => s) false (some ["frotz/"])
        (some (.dir [("frotz", .dir [])])) none).err = none ∧
    (sync (fun s => s) false (some ["frotz/"])
        (some (.dir [("frotz", .dir [])])) none).dst =
      some (.dir [("frotz", .dir [])]) := by
  have h1 : toBeRemovedFileNames false (some ["frotz/"]) []
      [("frotz", FsTree.dir [])] [] = [] := rfl
  have h2 : toBeAddedFileNames (some ["frotz/"]) [] [("frotz", FsTree.dir [])] = [] := rfl
  have h3 : toBeAddedFolderPairs (some ["frotz/"]) [] [("frotz", FsTree.dir [])] =
      [("frotz", FsTree.dir [])] := rfl
  have h4 : toBeRemovedFileNames false (some ["frotz/"]) ["frotz"] [] [] = [] := rfl
  have h5 : toBeAddedFileNames (some ["frotz/"]) ["frotz"] [] = [] := rfl
  have h6 : toBeAddedFolderPairs (some ["frotz/"]) ["frotz"] [] = [] := rfl
  refine ⟨by decide, by decide, by rfl, ?_, ?_⟩ <;>
    simp [sync, syncFolder, syncChildren, syncFiles, removeAll,
      h1, h2, h3, h4, h5, h6, findE, setEntry]

/-- C10: at every directory visit the source directory is listed before
anything else; when that listing fails (source path missing or not a
directory) the visit returns the listing error with the destination
object untouched and a trace containing the single, non-mutating source
listing — in particular the destination directory has not been created. -/
theorem C10_listSourceFirst (h : String → String) (de : Bool)
    (globs : Option (List String)) (dst : Option FsTree) (rel : List String) :
    (syncFolder h de globs none dst rel =
      ⟨dst, some (.listingError rel), [.listDir .src rel]⟩) ∧
    (∀ c mt, syncFolder h de globs (some (.file c mt)) dst rel =
      ⟨dst, some (.listingError rel), [.listDir .src rel]⟩) ∧
    (FsOp.mutSide (.listDir .src rel) = none) ∧
    (∀ src, (syncFolder h de globs src dst rel).trace.head? =
      some (.listDir .src rel)) := by
  refine ⟨by rw [syncFolder], fun c mt => by rw [syncFolder], rfl, ?_⟩
  intro src
  rcases src with _ | t
  · rw [syncFolder]
    rfl
  · rcases t with ⟨c, mt⟩ | ses
    · rw [syncFolder]
      rfl
    · rcases dst with _ | t2
      · rw [syncFolder]
        simp only
        split
        all_goals simp
      · rcases t2 with ⟨c2, mt2⟩ | des
        · rw [syncFolder]
          rfl
        · rw [syncFolder]
          simp only
          split
          all_goals simp

lemma sizeOf_child_lt {ses : Entries} {n : String} {c : FsTree} (hm : (n, c) ∈ ses) :
    sizeOf (some c : Option FsTree) < sizeOf (some (FsTree.dir ses) : Option FsTree) := by
  have h1 := List.sizeOf_lt_of_mem hm
  simp at h1 ⊢
  omega

/-- Every operation of a directory visit touches the visited relative
path or something beneath it, and no operation mutates the source root. -/
lemma trace_inv (N : Nat) : ∀ (src : Option FsTree), sizeOf src ≤ N →
    ∀ (dst : Option FsTree) (rel : List String) (h : String → String) (de : Bool)
      (globs : Option (List String)),
    ∀ op ∈ (syncFolder h de globs src dst rel).trace,
      isUnder rel op.path = true ∧ op.mutSide ≠ some Side.src := by
  induction N using Nat.strong_induction_on with
  | _ N IH =>
    intro src hsz dst rel h de globs op hop
    rcases src with _ | t
    · rw [syncFolder] at hop
      simp at hop
      simp [hop, FsOp.path, FsOp.mutSide, isUnder_refl]
    · rcases t with ⟨c, mt⟩ | ses
      · rw [syncFolder] at hop
        simp at hop
        simp [hop, FsOp.path, FsOp.mutSide, isUnder_refl]
      · -- component facts, for an arbitrary destination listing
        have hheader : ∀ op2 : FsOp, (op2 = FsOp.listDir .src rel ∨
            op2 = .ensureDir .dst rel ∨ op2 = .listDir .dst rel) →
            isUnder rel op2.path = true ∧ op2.mutSide ≠ some Side.src := by
          rintro op2 (h1 | h1 | h1) <;>
            simp [h1, FsOp.path, FsOp.mutSide, isUnder_refl]
        have hrm : ∀ (des : Entries) (op2 : FsOp),
            op2 ∈ (removeAll (toBeRemovedFileNames de globs rel ses des).reverse des rel).2 →
            isUnder rel op2.path = true ∧ op2.mutSide ≠ some Side.src := by
          intro des op2 hr
          rw [removeAll_trace] at hr
          obtain ⟨m, _, rfl⟩ := List.mem_map.mp hr
          simp [FsOp.path, FsOp.mutSide, isUnder_append]
        have hfr : ∀ (des2 : Entries) (op2 : FsOp),
            op2 ∈ (syncFiles h ses rel (toBeAddedFileNames globs rel ses).reverse des2).trace →
            isUnder rel op2.path = true ∧ op2.mutSide ≠ some Side.src := by
          intro des2 op2 hf
          obtain ⟨m, _, hform⟩ := syncFiles_trace h ses rel _ _ op2 hf
          rcases hform with h1 | h1 | h1 | h1 <;>
            simp [h1, FsOp.path, FsOp.mutSide, isUnder_append]
        have hchild : ∀ (pairs : Entries), (∀ pr ∈ pairs, pr ∈ ses) →
            ∀ (des2 : Entries), ∀ op2 ∈ (syncChildren h de globs pairs des2 rel).trace,
            isUnder rel op2.path = true ∧ op2.mutSide ≠ some Side.src := by
          intro pairs
          induction pairs with
          | nil =>
            intro _ des2 op2 hop2
            rw [syncChildren] at hop2
            simp at hop2
          | cons pr rest ihp =>
            obtain ⟨n, c⟩ := pr
            intro hmem des2 op2 hop2
            rw [syncChildren] at hop2
            simp only at hop2
            have hcsz : sizeOf (some c : Option FsTree) < N := by
              have h1 := sizeOf_child_lt (hmem (n, c) (List.mem_cons_self _ _))
              have h2 : sizeOf (some (FsTree.dir ses) : Option FsTree) ≤ N := hsz
              omega
            have hrec := IH (sizeOf (some c : Option FsTree)) hcsz (some c)
              (Nat.le_refl _) (findE des2 n) (rel ++ [n]) h de globs
            split at hop2
            · obtain ⟨hu, hm⟩ := hrec op2 hop2
              exact ⟨isUnder_trans (isUnder_append rel [n]) hu, hm⟩
            · simp only [List.mem_append] at hop2
              rcases hop2 with h1 | h2
              · obtain ⟨hu, hm⟩ := hrec op2 h1
                exact ⟨isUnder_trans (isUnder_append rel [n]) hu, hm⟩
              · exact ihp (fun q hq => hmem q (List.mem_cons_of_mem _ hq)) _ op2 h2
        have hpairs_mem : ∀ pr ∈ (toBeAddedFolderPairs globs rel ses).reverse, pr ∈ ses := by
          intro pr hpr
          rw [List.mem_reverse] at hpr
          exact (mem_toBeAddedFolderPairs.mp hpr).1
        rcases dst with _ | t2
        · rw [syncFolder] at hop
          simp only at hop
          split at hop
          · simp only [List.mem_append] at hop
            rcases hop with (hh | hr) | hf
            · exact hheader op (by simpa using hh)
            · exact hrm [] op hr
            · exact hfr _ op hf
          · simp only [List.mem_append] at hop
            rcases hop with ((hh | hr) | hf) | hcr
            · exact hheader op (by simpa using hh)
            · exact hrm [] op hr
            · exact hfr _ op hf
            · exact hchild _ hpairs_mem _ op hcr
          all_goals simp
        · rcases t2 with ⟨c2, mt2⟩ | des
          · rw [syncFolder] at hop
            simp at hop
            rcases hop with h1 | h1 <;>
              simp [h1, FsOp.path, FsOp.mutSide, isUnder_refl]
          · rw [syncFolder] at hop
            simp only at hop
            split at hop
            · simp only [List.mem_append] at hop
              rcases hop with (hh | hr) | hf
              · exact hheader op (by simpa using hh)
              · exact hrm des op hr
              · exact hfr _ op hf
            · simp only [List.mem_append] at hop
              rcases hop with ((hh | hr) | hf) | hcr
              · exact hheader op (by simpa using hh)
              · exact hrm des op hr
              · exact hfr _ op hf
              · exact hchild _ hpairs_mem _ op hcr

lemma syncChildren_trace_level (h : String → String) (de : Bool)
    (globs : Option (List String)) (rel : List String) :
    ∀ (pairs des2 : Entries), ∀ op ∈ (syncChildren h de globs pairs des2 rel).trace,
      ∃ pr, pr ∈ pairs ∧ isUnder (rel ++ [pr.1]) op.path = true := by
  intro pairs
  induction pairs with
  | nil =>
    intro des2 op hop
    rw [syncChildren] at hop
    simp at hop
  | cons pr rest ihp =>
    obtain ⟨n, c⟩ := pr
    intro des2 op hop
    rw [syncChildren] at hop
    simp only at hop
    have hrec : ∀ hin : op ∈ (syncFolder h de globs (some c) (findE des2 n)
        (rel ++ [n])).trace, isUnder (rel ++ [n]) op.path = true :=
      fun hin => (trace_inv (sizeOf (some c : Option FsTree)) (some c) (Nat.le_refl _)
        (findE des2 n) (rel ++ [n]) h de globs op hin).1
    split at hop
    · exact ⟨(n, c), List.mem_cons_self _ _, hrec hop⟩
    · simp only [List.mem_append] at hop
      rcases hop with h1 | h2
      · exact ⟨(n, c), List.mem_cons_self _ _, hrec h1⟩
      · obtain ⟨q, hq, hu⟩ := ihp _ op h2
        exact ⟨q, List.mem_cons_of_mem _ hq, hu⟩

lemma syncFolder_trace_level (h : String → String) (de : Bool)
    (globs : Option (List String)) (ses : Entries) (dst : Option FsTree)
    (rel : List String) :
    ∀ op ∈ (syncFolder h de globs (some (.dir ses)) dst rel).trace,
      op.path = rel ∨
        ∃ m, isIgnored globs rel m = false ∧ isUnder (rel ++ [m]) op.path = true := by
  intro op hop
  have hheader : ∀ op2 : FsOp, (op2 = FsOp.listDir .src rel ∨
      op2 = .ensureDir .dst rel ∨ op2 = .listDir .dst rel) → op2.path = rel := by
    rintro op2 (h1 | h1 | h1) <;> simp [h1, FsOp.path]
  have hrm : ∀ (des : Entries) (op2 : FsOp),
      op2 ∈ (removeAll (toBeRemovedFileNames de globs rel ses des).reverse des rel).2 →
      ∃ m, isIgnored globs rel m = false ∧ isUnder (rel ++ [m]) op2.path = true := by
    intro des op2 hr
    rw [removeAll_trace] at hr
    obtain ⟨m, hm, rfl⟩ := List.mem_map.mp hr
    rw [List.mem_reverse] at hm
    obtain ⟨e, _, hig, _⟩ := mem_toBeRemovedFileNames.mp hm
    exact ⟨m, hig, by simp [FsOp.path, isUnder_refl]⟩
  have hfr : ∀ (des2 : Entries) (op2 : FsOp),
      op2 ∈ (syncFiles h ses rel (toBeAddedFileNames globs rel ses).reverse des2).trace →
      ∃ m, isIgnored globs rel m = false ∧ isUnder (rel ++ [m]) op2.path = true := by
    intro des2 op2 hf
    obtain ⟨m, hm, hform⟩ := syncFiles_trace h ses rel _ _ op2 hf
    rw [List.mem_reverse] at hm
    obtain ⟨e, _, _, hig⟩ := mem_toBeAddedFileNames.mp hm
    rcases hform with h1 | h1 | h1 | h1 <;>
      exact ⟨m, hig, by simp [h1, FsOp.path, isUnder_refl]⟩
  have hcr : ∀ (des2 : Entries) (op2 : FsOp),
      op2 ∈ (syncChildren h de globs (toBeAddedFolderPairs globs rel ses).reverse
        des2 rel).trace →
      ∃ m, isIgnored globs rel m = false ∧ isUnder (rel ++ [m]) op2.path = true := by
    intro des2 op2 hc
    obtain ⟨pr, hpr, hu⟩ := syncChildren_trace_level h de globs rel _ des2 op2 hc
    rw [List.mem_reverse] at hpr
    obtain ⟨_, _, hig⟩ := mem_toBeAddedFolderPairs.mp hpr
    exact ⟨pr.1, hig, hu⟩
  rcases dst with _ | t2
  · rw [syncFolder] at hop
    simp only at hop
    split at hop
    · simp only [List.mem_append] at hop
      rcases hop with (hh | hr) | hf
      · exact Or.inl (hheader op (by simpa using hh))
      · exact Or.inr (hrm [] op hr)
      · exact Or.inr (hfr _ op hf)
    · simp only [List.mem_append] at hop
      rcases hop with ((hh | hr) | hf) | hc
      · exact Or.inl (hheader op (by simpa using hh))
      · exact Or.inr (hrm [] op hr)
      · exact Or.inr (hfr _ op hf)
      · exact Or.inr (hcr _ op hc)
    all_goals simp
  · rcases t2 with ⟨c2, mt2⟩ | des
    · rw [syncFolder] at hop
      simp at hop
      rcases hop with h1 | h1 <;> exact Or.inl (by simp [h1, FsOp.path])
    · rw [syncFolder] at hop
      simp only at hop
      split at hop
      · simp only [List.mem_append] at hop
        rcases hop with (hh | hr) | hf
        · exact Or.inl (hheader op (by simpa using hh))
        · exact Or.inr (hrm des op hr)
        · exact Or.inr (hfr _ op hf)
      · simp only [List.mem_append] at hop
        rcases hop with ((hh | hr) | hf) | hc
        · exact Or.inl (hheader op (by simpa using hh))
        · exact Or.inr (hrm des op hr)
        · exact Or.inr (hfr _ op hf)
        · exact Or.inr (hcr _ op hc)

/-- C9: source immutability.  Every operation in the trace of a sync that
mutates the filesystem (directory creation, removal, the write side of a
copy) targets the destination root; no operation mutates the source
root. -/
theorem C9_sourceImmutable (h : String → String) (de : Bool)
    (globs : Option (List String)) (src dst : Option FsTree) :
    ∀ op ∈ (sync h de globs src dst).trace, op.mutSide ≠ some Side.src :=
  fun op hop =>
    (trace_inv (sizeOf src) src (Nat.le_refl _) dst [] h de globs op hop).2

/-- Witness for C9 at a concrete input: the copy that materializes `a`
mutates only the destination side. -/
theorem C9_sourceImmutable_witness :
    (FsOp.copyFile .src .dst ["a"]) ∈
      (sync (fun s => s) false none (some (.dir [("a", .file "x" 0)])) none).trace ∧
    (FsOp.copyFile .src .dst ["a"]).mutSide ≠ some Side.src := by
  have hmem : (FsOp.copyFile .src .dst ["a"]) ∈
      (sync (fun s => s) false none (some (.dir [("a", .file "x" 0)])) none).trace := by
    simp [sync, syncFolder, syncChildren, syncFiles, removeAll, updateFile,
      toBeRemovedFileNames, toBeAddedFileNames, toBeAddedFolderPairs, findE, setEntry,
      isIgnored, isDirT, List.filter, List.find?]
  exact ⟨hmem, C9_sourceImmutable (fun s => s) false none
    (some (.dir [("a", .file "x" 0)])) none _ hmem⟩

/-- C7: directory pruning.  An ignored entry never appears among the
subdirectories retained for recursion, and no operation of the whole
visit — listing, hashing, copying, removal, or any deeper visit — ever
touches the ignored entry's path or anything beneath it. -/
theorem C7_pruning (h : String → String) (de : Bool) (globs : Option (List String))
    (ses : Entries) (dst : Option FsTree) (rel : List String) (n : String)
    (hig : isIgnored globs rel n = true) :
    n ∉ entryNames (toBeAddedFolderPairs globs rel ses) ∧
    ∀ op ∈ (syncFolder h de globs (some (.dir ses)) dst rel).trace,
      isUnder (rel ++ [n]) op.path = false := by
  constructor
  · intro hmem
    obtain ⟨pr, hpr, rfl⟩ := List.mem_map.mp hmem
    have := (mem_toBeAddedFolderPairs.mp hpr).2.2
    rw [hig] at this
    exact Bool.true_eq_false.mp this
  · intro op hop
    rcases syncFolder_trace_level h de globs ses dst rel op hop with hrel | ⟨m, higm, hu⟩
    · rw [hrel]
      exact not_isUnder_child_self
    · have hne : m ≠ n := fun hmn => by
        rw [hmn, hig] at higm
        exact Bool.true_eq_false.mp higm
      exact isUnder_child_disjoint hne hu

/-- Witness for C7 at a concrete input: with pattern `sub`, the source
directory `sub` is pruned and nothing beneath `/sub` is ever touched. -/
theorem C7_pruning_witness :
    isIgnored (some ["sub"]) [] "sub" = true ∧
    ("sub" ∉ entryNames (toBeAddedFolderPairs (some ["sub"]) []
        [("sub", FsTree.dir [("x", FsTree.file "1" 0)]), ("a", FsTree.file "y" 0)]) ∧
      ∀ op ∈ (syncFolder (fun s => s) true (some ["sub"])
          (some (.dir [("sub", FsTree.dir [("x", FsTree.file "1" 0)]),
            ("a", FsTree.file "y" 0)])) none []).trace,
        isUnder ([] ++ ["sub"]) op.path = false) :=
  ⟨by decide, C7_pruning (fun s => s) true (some ["sub"])
    [("sub", FsTree.dir [("x", FsTree.file "1" 0)]), ("a", FsTree.file "y" 0)]
    none [] "sub" (by decide)⟩

/-- C5: per-directory phase ordering.  The trace of a successful
directory visit is the listing/creation header, then the removal
operations, then the file-update operations, then the operations of the
recursive subdirectory visits, strictly in that order. -/
theorem C5_phaseOrdering (h : String → String) (de : Bool)
    (globs : Option (List String)) (ses : Entries) (dst : Option FsTree)
    (rel : List String)
    (hsucc : (syncFolder h de globs (some (.dir ses)) dst rel).err = none) :
    ∃ t1 t2 t3,
      (syncFolder h de globs (some (.dir ses)) dst rel).trace =
        [FsOp.listDir .src rel, .ensureDir .dst rel, .listDir .dst rel] ++
          t1 ++ t2 ++ t3 ∧
      (∀ op ∈ t1, ∃ m, op = FsOp.removeEntry .dst (rel ++ [m])) ∧
      (∀ op ∈ t2, ∃ m, m ∈ toBeAddedFileNames globs rel ses ∧
        (op = FsOp.hashFile .src (rel ++ [m]) ∨ op = .existsCheck .dst (rel ++ [m]) ∨
          op = .hashFile .dst (rel ++ [m]) ∨ op = .copyFile .src .dst (rel ++ [m]))) ∧
      (∀ op ∈ t3, ∃ m, m ∈ entryNames (toBeAddedFolderPairs globs rel ses) ∧
        isUnder (rel ++ [m]) op.path = true) := by
  have hrmP : ∀ (des : Entries),
      ∀ op ∈ (removeAll (toBeRemovedFileNames de globs rel ses des).reverse des rel).2,
      ∃ m, op = FsOp.removeEntry .dst (rel ++ [m]) := by
    intro des op hr
    rw [removeAll_trace] at hr
    obtain ⟨m, _, rfl⟩ := List.mem_map.mp hr
    exact ⟨m, rfl⟩
  have hfrP : ∀ (des2 : Entries),
      ∀ op ∈ (syncFiles h ses rel (toBeAddedFileNames globs rel ses).reverse des2).trace,
      ∃ m, m ∈ toBeAddedFileNames globs rel ses ∧
        (op = FsOp.hashFile .src (rel ++ [m]) ∨ op = .existsCheck .dst (rel ++ [m]) ∨
          op = .hashFile .dst (rel ++ [m]) ∨ op = .copyFile .src .dst (rel ++ [m])) := by
    intro des2 op hf
    obtain ⟨m, hm, hform⟩ := syncFiles_trace h ses rel _ _ op hf
    rw [List.mem_reverse] at hm
    exact ⟨m, hm, hform⟩
  have hcrP : ∀ (des2 : Entries),
      ∀ op ∈ (syncChildren h de globs (toBeAddedFolderPairs globs rel ses).reverse
        des2 rel).trace,
      ∃ m, m ∈ entryNames (toBeAddedFolderPairs globs rel ses) ∧
        isUnder (rel ++ [m]) op.path = true := by
    intro des2 op hc
    obtain ⟨pr, hpr, hu⟩ := syncChildren_trace_level h de globs rel _ des2 op hc
    rw [List.mem_reverse] at hpr
    exact ⟨pr.1, List.mem_map.mpr ⟨pr, hpr, rfl⟩, hu⟩
  rcases dst with _ | t2
  · rw [syncFolder] at hsucc ⊢
    simp only at hsucc ⊢
    split at hsucc
    · simp at hsucc
    · exact ⟨(removeAll (toBeRemovedFileNames de globs rel ses []).reverse [] rel).2,
        (syncFiles h ses rel (toBeAddedFileNames globs rel ses).reverse
          (removeAll (toBeRemovedFileNames de globs rel ses []).reverse [] rel).1).trace,
        (syncChildren h de globs (toBeAddedFolderPairs globs rel ses).reverse
          (syncFiles h ses rel (toBeAddedFileNames globs rel ses).reverse
            (removeAll (toBeRemovedFileNames de globs rel ses []).reverse [] rel).1).es
          rel).trace,
        by simp, hrmP [], hfrP _, hcrP _⟩
    all_goals simp
  · rcases t2 with ⟨c2, mt2⟩ | des
    · rw [syncFolder] at hsucc
      simp at hsucc
    · rw [syncFolder] at hsucc ⊢
      simp only at hsucc ⊢
      split at hsucc
      · simp at hsucc
      · exact ⟨(removeAll (toBeRemovedFileNames de globs rel ses des).reverse des rel).2,
          (syncFiles h ses rel (toBeAddedFileNames globs rel ses).reverse
            (removeAll (toBeRemovedFileNames de globs rel ses des).reverse des rel).1).trace,
          (syncChildren h de globs (toBeAddedFolderPairs globs rel ses).reverse
            (syncFiles h ses rel (toBeAddedFileNames globs rel ses).reverse
              (removeAll (toBeRemovedFileNames de globs rel ses des).reverse des rel).1).es
            rel).trace,
          by simp, hrmP des, hfrP _, hcrP _⟩

lemma sizeOf_dirchild_lt {ses : Entries} {n : String} {ces : Entries}
    (hm : (n, FsTree.dir ces) ∈ ses) :
    sizeOf (FsTree.dir ces) < sizeOf (FsTree.dir ses) := by
  have h1 := List.sizeOf_lt_of_mem hm
  simp at h1 ⊢
  omega

lemma entries_unique {es : Entries} {n : String} {e1 e2 : FsTree}
    (hd : distinctNames es = true) (h1 : (n, e1) ∈ es) (h2 : (n, e2) ∈ es) :
    e1 = e2 := by
  have hf1 := findE_eq_of_mem hd h1
  have hf2 := findE_eq_of_mem hd h2
  rw [hf1] at hf2
  exact Option.some.inj hf2

lemma entryNames_reverse (es : Entries) :
    entryNames es.reverse = (entryNames es).reverse := by
  simp [entryNames]

lemma wfb_dir_iff {es : Entries} :
    wfb (.dir es) = true ↔ distinctNames es = true ∧ wfbL es = true := by
  rw [wfb_dir, Bool.and_eq_true]

lemma wfb_nil : wfb (.dir []) = true := by
  rw [wfb_dir]
  simp [distinctNames, wfbL]

/-- For a source directory, the engine behaves identically on a missing
destination and on an empty destination directory: `ensureDir` creates
the directory and the listing returns no entries. -/
lemma syncFolder_none_eq (h : String → String) (de : Bool)
    (globs : Option (List String)) (ses : Entries) (rel : List String) :
    syncFolder h de globs (some (.dir ses)) none rel =
      syncFolder h de globs (some (.dir ses)) (some (.dir [])) rel := by
  simp only [syncFolder]

/-- Main soundness induction: on well-formed trees, a visit of a source
directory against a destination directory never fails, produces a
well-formed destination directory, and establishes the `Synced`
mirroring invariant. -/
theorem syncFolder_ok (N : Nat) : ∀ (ses : Entries), sizeOf (FsTree.dir ses) ≤ N →
    ∀ (des : Entries) (rel : List String) (h : String → String) (de : Bool)
      (globs : Option (List String)),
    wfb (.dir ses) = true → wfb (.dir des) = true →
    (syncFolder h de globs (some (.dir ses)) (some (.dir des)) rel).err = none ∧
    ∃ des', (syncFolder h de globs (some (.dir ses)) (some (.dir des)) rel).dst =
        some (.dir des') ∧ wfb (.dir des') = true ∧
      Synced h de globs rel (.dir ses) (.dir des') := by
  induction N using Nat.strong_induction_on with
  | _ N IH =>
  intro ses hsz des rel h de globs hwfs hwfd
  obtain ⟨hd_ses, hw_ses⟩ := wfb_dir_iff.mp hwfs
  obtain ⟨hd_des, hw_des⟩ := wfb_dir_iff.mp hwfd
  -- the children loop
  have hch : ∀ (pairs2 des2 : Entries),
      (∀ pr ∈ pairs2, pr ∈ ses ∧ isDirT pr.2 = true ∧
        isIgnored globs rel pr.1 = false) →
      (entryNames pairs2).Nodup →
      (∀ pr ∈ pairs2, findE des2 pr.1 = none ∨
        ∃ ces, findE des2 pr.1 = some (.dir ces) ∧ wfb (.dir ces) = true) →
      distinctNames des2 = true → wfbL des2 = true →
      (syncChildren h de globs pairs2 des2 rel).err = none ∧
      distinctNames (syncChildren h de globs pairs2 des2 rel).es = true ∧
      wfbL (syncChildren h de globs pairs2 des2 rel).es = true ∧
      (∀ m, m ∉ entryNames pairs2 →
        findE (syncChildren h de globs pairs2 des2 rel).es m = findE des2 m) ∧
      (∀ n ces, (n, FsTree.dir ces) ∈ pairs2 →
        ∃ des', findE (syncChildren h de globs pairs2 des2 rel).es n =
            some (.dir des') ∧ wfb (.dir des') = true ∧
          Synced h de globs (rel ++ [n]) (.dir ces) (.dir des')) := by
    intro pairs2
    induction pairs2 with
    | nil =>
      intro des2 _ _ _ hd2 hw2
      rw [syncChildren]
      exact ⟨rfl, hd2, hw2, fun m _ => rfl,
        fun n ces hmem => absurd hmem (List.not_mem_nil _)⟩
    | cons pr rest ihp =>
      obtain ⟨n, c⟩ := pr
      intro des2 hm2 hnd2 hdst2 hd2 hw2
      obtain ⟨hses_n, hdt_n, hig_n⟩ := hm2 (n, c) (List.mem_cons_self _ _)
      rcases c with ⟨cc, cmt⟩ | ces
      · simp [isDirT] at hdt_n
      have hwfc : wfb (.dir ces) = true := wfbL_mem hw_ses hses_n
      have hclt : sizeOf (FsTree.dir ces) < N :=
        Nat.lt_of_lt_of_le (sizeOf_dirchild_lt hses_n) hsz
      have hrec' : (syncFolder h de globs (some (.dir ces)) (findE des2 n)
            (rel ++ [n])).err = none ∧
          ∃ des', (syncFolder h de globs (some (.dir ces)) (findE des2 n)
              (rel ++ [n])).dst = some (.dir des') ∧ wfb (.dir des') = true ∧
            Synced h de globs (rel ++ [n]) (.dir ces) (.dir des') := by
        rcases hdst2 (n, .dir ces) (List.mem_cons_self _ _) with hnone |
          ⟨dces, hdces, hwfdces⟩
        · rw [hnone, syncFolder_none_eq]
          exact IH (sizeOf (FsTree.dir ces)) hclt ces (Nat.le_refl _) []
            (rel ++ [n]) h de globs hwfc wfb_nil
        · rw [hdces]
          exact IH (sizeOf (FsTree.dir ces)) hclt ces (Nat.le_refl _) dces
            (rel ++ [n]) h de globs hwfc hwfdces
      obtain ⟨cerr, des', hdstq, hwf', hsync'⟩ := hrec'
      have hn_rest : n ∉ entryNames rest := by
        have : entryNames ((n, FsTree.dir ces) :: rest) =
            n :: entryNames rest := rfl
        rw [this] at hnd2
        exact (List.nodup_cons.mp hnd2).1
      have hnd_rest : (entryNames rest).Nodup := by
        have : entryNames ((n, FsTree.dir ces) :: rest) =
            n :: entryNames rest := rfl
        rw [this] at hnd2
        exact (List.nodup_cons.mp hnd2).2
      have hstep : syncChildren h de globs ((n, FsTree.dir ces) :: rest) des2 rel =
          ⟨(syncChildren h de globs rest (setEntry des2 n (.dir des')) rel).es,
            (syncChildren h de globs rest (setEntry des2 n (.dir des')) rel).err,
            (syncFolder h de globs (some (.dir ces)) (findE des2 n)
              (rel ++ [n])).trace ++
              (syncChildren h de globs rest (setEntry des2 n (.dir des')) rel).trace⟩ := by
        rw [syncChildren]
        simp only
        rw [hdstq, cerr]
      have hrest_ne : ∀ pr2, pr2 ∈ rest → pr2.1 ≠ n := by
        intro pr2 hpr2 habs
        exact hn_rest (habs ▸ List.mem_map.mpr ⟨pr2, hpr2, rfl⟩)
      have ihres := ihp (setEntry des2 n (.dir des'))
        (fun pr2 hpr2 => hm2 pr2 (List.mem_cons_of_mem _ hpr2))
        hnd_rest
        (fun pr2 hpr2 => by
          rw [findE_setEntry_ne des2 n _ pr2.1 (hrest_ne pr2 hpr2)]
          exact hdst2 pr2 (List.mem_cons_of_mem _ hpr2))
        (distinctNames_setEntry des2 n _ hd2)
        (wfbL_setEntry des2 n _ hw2 hwf')
      obtain ⟨r2err, r2d, r2w, r2out, r2rec⟩ := ihres
      rw [hstep]
      refine ⟨r2err, r2d, r2w, ?_, ?_⟩
      · intro m hm
        have hmn : m ≠ n := by
          intro habs
          exact hm (habs ▸ List.mem_cons_self _ _)
        have hmr : m ∉ entryNames rest := by
          intro habs
          exact hm (List.mem_cons_of_mem _ habs)
        rw [r2out m hmr, findE_setEntry_ne des2 n _ m hmn]
      · intro k kces hkmem
        rcases List.mem_cons.mp hkmem with hh | ht
        · simp only [Prod.mk.injEq, FsTree.dir.injEq] at hh
          obtain ⟨hk, hkc⟩ := hh
          subst hk
          subst hkc
          refine ⟨des', ?_, hwf', hsync'⟩
          rw [r2out k hn_rest, findE_setEntry_self]
        · exact r2rec k kces ht
  -- unfold the visit
  rw [syncFolder]
  simp only
  set R := toBeRemovedFileNames de globs rel ses des with hRdef
  set des1 := (removeAll R.reverse des rel).1 with hdes1def
  set L := (toBeAddedFileNames globs rel ses).reverse with hLdef
  set FR := syncFiles h ses rel L des1 with hFRdef
  set pairs := (toBeAddedFolderPairs globs rel ses).reverse with hpairsdef
  -- phase 1 facts
  have hfind1 : ∀ m, findE des1 m = if m ∈ R then none else findE des m := by
    intro m
    rw [hdes1def, findE_removeAll]
    by_cases hm : m ∈ R <;> simp [hm]
  have hmem_des1 : ∀ pr : String × FsTree, pr ∈ des1 ↔ pr ∈ des ∧ pr.1 ∉ R := by
    intro pr
    rw [hdes1def, mem_removeAll]
    simp
  have hd_des1 : distinctNames des1 = true := by
    rw [hdes1def]
    exact distinctNames_removeAll _ _ _ hd_des
  have hw_des1 : wfbL des1 = true := by
    rw [hdes1def]
    exact wfbL_removeAll _ _ _ hw_des
  -- phase 2 facts
  have hsrcL : ∀ n ∈ L, ∃ c mt, findE ses n = some (.file c mt) := by
    intro n hn
    rw [hLdef, List.mem_reverse] at hn
    obtain ⟨e, hm, hdt, hig⟩ := mem_toBeAddedFileNames.mp hn
    rcases e with ⟨c, mt⟩ | ces
    · exact ⟨c, mt, findE_eq_of_mem hd_ses hm⟩
    · simp [isDirT] at hdt
  have hndL : L.Nodup := by
    rw [hLdef]
    exact List.nodup_reverse.mpr (nodup_names_filter _ hd_ses)
  have hfileR : ∀ n ∈ L, ∀ ces, findE des1 n ≠ some (.dir ces) := by
    intro n hn ces hcontra
    have hn' := hn
    rw [hLdef, List.mem_reverse] at hn'
    obtain ⟨e, hm, hdt, hig⟩ := mem_toBeAddedFileNames.mp hn'
    rcases e with ⟨c, mt⟩ | ces2
    · obtain ⟨hmemdes, hnR⟩ := (hmem_des1 (n, .dir ces)).mp (mem_of_findE hcontra)
      exact hnR (mem_toBeRemovedFileNames.mpr ⟨.dir ces, hmemdes, hig,
        Or.inr ⟨.file c mt, findE_eq_of_mem hd_ses hm, by simp [isDirT]⟩⟩)
    · simp [isDirT] at hdt
  obtain ⟨SFerr, SFout, SFrec, SFd, SFw⟩ := syncFiles_ok h ses rel L des1 hsrcL hndL hfileR
  have hd_fr : distinctNames FR.es = true := SFd hd_des1
  have hw_fr : wfbL FR.es = true := SFw hw_des1
  -- phase 3 preconditions
  have hpairs_mem : ∀ pr ∈ pairs, pr ∈ ses ∧ isDirT pr.2 = true ∧
      isIgnored globs rel pr.1 = false := by
    intro pr hpr
    rw [hpairsdef, List.mem_reverse] at hpr
    exact mem_toBeAddedFolderPairs.mp hpr
  have hpairs_nd : (entryNames pairs).Nodup := by
    rw [hpairsdef, entryNames_reverse]
    exact List.nodup_reverse.mpr (nodup_names_filter _ hd_ses)
  have hnotL_of_dir : ∀ (m : String) (mces : Entries), (m, FsTree.dir mces) ∈ ses →
      m ∉ L := by
    intro m mces hmem hmL
    rw [hLdef, List.mem_reverse] at hmL
    obtain ⟨e, hm2, hdt2, _⟩ := mem_toBeAddedFileNames.mp hmL
    have heq := entries_unique hd_ses hm2 hmem
    rw [heq] at hdt2
    simp [isDirT] at hdt2
  have hpairs_dst : ∀ pr ∈ pairs, findE FR.es pr.1 = none ∨
      ∃ ces, findE FR.es pr.1 = some (.dir ces) ∧ wfb (.dir ces) = true := by
    intro pr hpr
    obtain ⟨hses2, hdt2, hig2⟩ := hpairs_mem pr hpr
    rcases hpr2 : pr.2 with ⟨c2, mt2⟩ | pces
    · rw [hpr2] at hdt2
      simp [isDirT] at hdt2
    have hses3 : (pr.1, FsTree.dir pces) ∈ ses := by
      rw [← hpr2]
      exact hses2
    have hnL : pr.1 ∉ L := hnotL_of_dir pr.1 pces hses3
    rw [SFout pr.1 hnL, hfind1]
    by_cases hnR : pr.1 ∈ R
    · simp [hnR]
    · simp only [hnR, if_false]
      rcases hfd : findE des pr.1 with _ | t
      · exact Or.inl rfl
      · rcases t with ⟨c3, mt3⟩ | ces3
        · exfalso
          apply hnR
          refine mem_toBeRemovedFileNames.mpr ⟨.file c3 mt3, mem_of_findE hfd, hig2,
            Or.inr ⟨.dir pces, findE_eq_of_mem hd_ses hses3, by simp [isDirT]⟩⟩
        · exact Or.inr ⟨ces3, rfl, wfbL_mem hw_des (mem_of_findE hfd)⟩
  obtain ⟨CRerr, CRd, CRw, CRout, CRrec⟩ :=
    hch pairs FR.es hpairs_mem hpairs_nd hpairs_dst hd_fr hw_fr
  rw [SFerr]
  refine ⟨CRerr, (syncChildren h de globs pairs FR.es rel).es, rfl,
    wfb_dir_iff.mpr ⟨CRd, CRw⟩, ?_⟩
  refine Synced.mk rel ses _ ?_ ?_ ?_ ?_
  · -- source files are mirrored with equal digest
    intro n c mt hmem hig
    have hnL : n ∈ L := by
      rw [hLdef, List.mem_reverse]
      exact mem_toBeAddedFileNames.mpr ⟨.file c mt, hmem, rfl, hig⟩
    have hnotpairs : n ∉ entryNames pairs := by
      intro hnp
      obtain ⟨pr, hpr, hpr1⟩ := List.mem_map.mp hnp
      obtain ⟨hprses, hprdir, _⟩ := hpairs_mem pr hpr
      have hses4 : (n, pr.2) ∈ ses := by
        rw [← hpr1]
        exact hprses
      have heq := entries_unique hd_ses hmem hses4
      rw [← heq] at hprdir
      simp [isDirT] at hprdir
    obtain ⟨c', mt', hfr, hh⟩ := SFrec n hnL c mt (findE_eq_of_mem hd_ses hmem)
    refine ⟨c', mt', ?_, hh⟩
    rw [CRout n hnotpairs, hfr]
  · -- source directories exist in the result
    intro n ces hmem hig
    have hp : (n, FsTree.dir ces) ∈ pairs := by
      rw [hpairsdef, List.mem_reverse]
      exact mem_toBeAddedFolderPairs.mpr ⟨hmem, rfl, hig⟩
    obtain ⟨des', hf, _, _⟩ := CRrec n ces hp
    exact ⟨des', hf⟩
  · -- and are recursively mirrored
    intro n ces des'' hmem hig hfind
    have hp : (n, FsTree.dir ces) ∈ pairs := by
      rw [hpairsdef, List.mem_reverse]
      exact mem_toBeAddedFolderPairs.mpr ⟨hmem, rfl, hig⟩
    obtain ⟨des', hf, hwf2, hs2⟩ := CRrec n ces hp
    rw [hf] at hfind
    simp only [Option.some.injEq, FsTree.dir.injEq] at hfind
    rw [hfind] at hs2
    exact hs2
  · -- no extraneous or kind-mismatched survivors
    intro m e hmem_fin hig
    have hfind_fin : findE (syncChildren h de globs pairs FR.es rel).es m = some e :=
      findE_eq_of_mem CRd hmem_fin
    by_cases hmp : m ∈ entryNames pairs
    · obtain ⟨pr, hpr, hpr1⟩ := List.mem_map.mp hmp
      obtain ⟨hprses, hprdir, _⟩ := hpairs_mem pr hpr
      rcases hpr2 : pr.2 with ⟨c2, mt2⟩ | pces
      · rw [hpr2] at hprdir
        simp [isDirT] at hprdir
      have hp : (m, FsTree.dir pces) ∈ pairs := by
        have : pr = (m, FsTree.dir pces) := Prod.ext hpr1 hpr2
        rw [← this]
        exact hpr
      obtain ⟨des', hf, _, _⟩ := CRrec m pces hp
      rw [hfind_fin] at hf
      simp only [Option.some.injEq] at hf
      have hses5 : (m, FsTree.dir pces) ∈ ses := by
        have : pr = (m, FsTree.dir pces) := Prod.ext hpr1 hpr2
        rw [← this]
        exact hprses
      have hfs : findE ses m = some (.dir pces) := findE_eq_of_mem hd_ses hses5
      constructor
      · intro habs
        rw [hfs] at habs
        cases habs
      · intro s hs
        rw [hfs] at hs
        simp only [Option.some.injEq] at hs
        rw [← hs, hf]
        simp [isDirT]
    · by_cases hmL : m ∈ L
      · obtain ⟨c, mt, hsm⟩ := hsrcL m hmL
        obtain ⟨c', mt', hfr, _⟩ := SFrec m hmL c mt hsm
        have he : e = .file c' mt' := by
          rw [CRout m hmp, hfr] at hfind_fin
          exact (Option.some.inj hfind_fin).symm
        constructor
        · intro habs
          rw [hsm] at habs
          cases habs
        · intro s hs
          rw [hsm] at hs
          simp only [Option.some.injEq] at hs
          rw [← hs, he]
          simp [isDirT]
      · have h2 : findE des1 m = some e := by
          rw [CRout m hmp, SFout m hmL] at hfind_fin
          exact hfind_fin
        by_cases hmR : m ∈ R
        · rw [hfind1 m, if_pos hmR] at h2
          cases h2
        · have hdes_m : findE des m = some e := by
            rw [hfind1 m, if_neg hmR] at h2
            exact h2
          have hmem_des : (m, e) ∈ des := mem_of_findE hdes_m
          constructor
          · intro hnone
            by_contra hde
            refine hmR (mem_toBeRemovedFileNames.mpr ⟨e, hmem_des, hig,
              Or.inl ⟨hnone, ?_⟩⟩)
            simpa using hde
          · intro s hs
            by_contra hne
            exact hmR (mem_toBeRemovedFileNames.mpr ⟨e, hmem_des, hig,
              Or.inr ⟨s, hs, hne⟩⟩)

/-- Second-run lemma: when the destination already mirrors the source
(in the sense of `Synced`), a visit changes nothing, succeeds, and its
trace contains no copy and no removal. -/
theorem synced_noop (N : Nat) : ∀ (ses : Entries), sizeOf (FsTree.dir ses) ≤ N →
    ∀ (des : Entries) (rel : List String) (h : String → String) (de : Bool)
      (globs : Option (List String)),
    wfb (.dir ses) = true →
    Synced h de globs rel (.dir ses) (.dir des) →
    (syncFolder h de globs (some (.dir ses)) (some (.dir des)) rel).err = none ∧
    (syncFolder h de globs (some (.dir ses)) (some (.dir des)) rel).dst =
      some (.dir des) ∧
    ∀ op ∈ (syncFolder h de globs (some (.dir ses)) (some (.dir des)) rel).trace,
      op.isCopy = false ∧ op.isRemove = false := by
  induction N using Nat.strong_induction_on with
  | _ N IH =>
  intro ses hsz des rel h de globs hwfs hsync
  obtain ⟨hd_ses, hw_ses⟩ := wfb_dir_iff.mp hwfs
  rcases hsync with ⟨_, _, _, hfile, hdirEx, hdir, hex⟩
  -- nothing is marked for removal
  have hR : toBeRemovedFileNames de globs rel ses des = [] := by
    have hempty : ∀ n, n ∉ toBeRemovedFileNames de globs rel ses des := by
      intro n hn
      obtain ⟨e, hmem, hig, hcond⟩ := mem_toBeRemovedFileNames.mp hn
      obtain ⟨hnone_imp, hkind⟩ := hex n e hmem hig
      rcases hcond with ⟨hnone, hde⟩ | ⟨s, hsome, hne⟩
      · rw [hnone_imp hnone] at hde
        cases hde
      · exact hne (hkind s hsome)
    rcases hcase : toBeRemovedFileNames de globs rel ses des with _ | ⟨n, rest⟩
    · rfl
    · exact absurd (hcase ▸ List.mem_cons_self n rest) (hempty n)
  -- the file phase leaves the destination untouched
  have hall : ∀ n ∈ (toBeAddedFileNames globs rel ses).reverse,
      ∃ c mt c' mt', findE ses n = some (.file c mt) ∧
        findE des n = some (.file c' mt') ∧ h c' = h c := by
    intro n hn
    rw [List.mem_reverse] at hn
    obtain ⟨e, hmem, hdt, hig⟩ := mem_toBeAddedFileNames.mp hn
    rcases e with ⟨c, mt⟩ | ces
    · obtain ⟨c', mt', hfd, hh⟩ := hfile n c mt hmem hig
      exact ⟨c, mt, c', mt', findE_eq_of_mem hd_ses hmem, hfd, hh⟩
    · simp [isDirT] at hdt
  obtain ⟨FRes, FRerr, FRtr⟩ :=
    syncFiles_noop h ses rel (toBeAddedFileNames globs rel ses).reverse des hall
  -- the recursion leaves every child untouched
  have hch2 : ∀ (pairs2 : Entries),
      (∀ pr ∈ pairs2, pr ∈ ses ∧ isDirT pr.2 = true ∧
        isIgnored globs rel pr.1 = false) →
      (syncChildren h de globs pairs2 des rel).err = none ∧
      (syncChildren h de globs pairs2 des rel).es = des ∧
      ∀ op ∈ (syncChildren h de globs pairs2 des rel).trace,
        op.isCopy = false ∧ op.isRemove = false := by
    intro pairs2
    induction pairs2 with
    | nil =>
      intro _
      rw [syncChildren]
      exact ⟨rfl, rfl, by simp⟩
    | cons pr rest ihp =>
      obtain ⟨n, c⟩ := pr
      intro hm2
      obtain ⟨hses_n, hdt_n, hig_n⟩ := hm2 (n, c) (List.mem_cons_self _ _)
      rcases c with ⟨cc, cmt⟩ | ces
      · simp [isDirT] at hdt_n
      have hwfc : wfb (.dir ces) = true := wfbL_mem hw_ses hses_n
      have hclt : sizeOf (FsTree.dir ces) < N :=
        Nat.lt_of_lt_of_le (sizeOf_dirchild_lt hses_n) hsz
      obtain ⟨dces, hdces⟩ := hdirEx n ces hses_n hig_n
      have hsync_c := hdir n ces dces hses_n hig_n hdces
      obtain ⟨cerr, cdst, ctr⟩ := IH (sizeOf (FsTree.dir ces)) hclt ces (Nat.le_refl _)
        dces (rel ++ [n]) h de globs hwfc hsync_c
      have hstep : syncChildren h de globs ((n, FsTree.dir ces) :: rest) des rel =
          ⟨(syncChildren h de globs rest des rel).es,
            (syncChildren h de globs rest des rel).err,
            (syncFolder h de globs (some (.dir ces)) (findE des n)
              (rel ++ [n])).trace ++
              (syncChildren h de globs rest des rel).trace⟩ := by
        rw [syncChildren]
        simp only
        rw [hdces, cdst, cerr]
        simp only [setEntry_self hdces]
      obtain ⟨r2err, r2es, r2tr⟩ := ihp (fun q hq => hm2 q (List.mem_cons_of_mem _ hq))
      rw [hstep]
      refine ⟨r2err, r2es, ?_⟩
      intro op hop
      simp only [List.mem_append] at hop
      rcases hop with h1 | h2
      · rw [hdces] at h1
        exact ctr op h1
      · exact r2tr op h2
  have hpairs_mem : ∀ pr ∈ (toBeAddedFolderPairs globs rel ses).reverse,
      pr ∈ ses ∧ isDirT pr.2 = true ∧ isIgnored globs rel pr.1 = false := by
    intro pr hpr
    rw [List.mem_reverse] at hpr
    exact mem_toBeAddedFolderPairs.mp hpr
  obtain ⟨CRerr, CRes, CRtr⟩ := hch2 (toBeAddedFolderPairs globs rel ses).reverse hpairs_mem
  -- assemble the visit
  rw [syncFolder]
  simp only
  rw [hR]
  have hrm0 : removeAll (([] : List String)).reverse des rel = (des, []) := rfl
  rw [hrm0]
  simp only
  rw [FRes, FRerr]
  simp only
  rw [CRes, CRerr]
  refine ⟨rfl, rfl, ?_⟩
  intro op hop
  simp only [List.mem_append] at hop
  rcases hop with ((hh | hf) | hf2) | hcr
  · simp at hh
    rcases hh with h1 | h1 | h1 <;> simp [h1, FsOp.isCopy, FsOp.isRemove]
  · simp at hf
  · refine ⟨FRtr op hf2, ?_⟩
    obtain ⟨m, _, hform⟩ := syncFiles_trace h ses rel _ _ op hf2
    rcases hform with h1 | h1 | h1 | h1 <;> simp [h1, FsOp.isRemove]
  · exact CRtr op hcr

lemma mem_visibleEntries_dir {h : String → String} {globs : Option (List String)}
    {rel : List String} {es : Entries} {x : VisEntry} :
    x ∈ visibleEntries h globs rel (.dir es) ↔
      ∃ n e, (n, e) ∈ es ∧ isIgnored globs rel n = false ∧
        (x = (rel ++ [n], isDirT e, digestOf h e) ∨
          x ∈ visibleEntries h globs (rel ++ [n]) e) := by
  rw [visibleEntries]
  induction es with
  | nil =>
    rw [visibleL]
    simp
  | cons pr rest ih =>
    obtain ⟨n, e⟩ := pr
    rw [visibleL]
    simp only [List.mem_append]
    constructor
    · rintro (hin | hin)
      · by_cases hig : isIgnored globs rel n = true
        · rw [if_pos hig] at hin
          simp at hin
        · have hig' : isIgnored globs rel n = false := by simpa using hig
          rw [if_neg hig] at hin
          rcases List.mem_cons.mp hin with hh | ht
          · exact ⟨n, e, List.mem_cons_self _ _, hig', Or.inl hh⟩
          · exact ⟨n, e, List.mem_cons_self _ _, hig', Or.inr ht⟩
      · obtain ⟨m, f, hm, hig2, hx⟩ := ih.mp hin
        exact ⟨m, f, List.mem_cons_of_mem _ hm, hig2, hx⟩
    · rintro ⟨m, f, hm, hig2, hx⟩
      rcases List.mem_cons.mp hm with hh | ht
      · simp only [Prod.mk.injEq] at hh
        obtain ⟨rfl, rfl⟩ := hh
        left
        rw [if_neg (by simp [hig2])]
        rcases hx with rfl | hxin
        · exact List.mem_cons_self _ _
        · exact List.mem_cons_of_mem _ hxin
      · exact Or.inr (ih.mpr ⟨m, f, ht, hig2, hx⟩)

lemma visibleEntries_file {h : String → String} {globs : Option (List String)}
    {rel : List String} {c : String} {mt : Nat} :
    visibleEntries h globs rel (.file c mt) = [] := by
  rw [visibleEntries]

/-- With `deleteExtraneous` set, a `Synced` destination has exactly the
source's non-ignored entries, with equal digests, at every depth. -/
theorem synced_visible (h : String → String) (globs : Option (List String)) :
    ∀ (rel : List String) (s d : FsTree), Synced h true globs rel s d →
      wfb s = true → wfb d = true →
      ∀ x, x ∈ visibleEntries h globs rel d ↔ x ∈ visibleEntries h globs rel s := by
  intro rel s d hs
  induction hs with
  | mk rel ses des hfile hdirEx hdir hex IHdir =>
    intro hwfs hwfd x
    obtain ⟨hd_ses, hw_ses⟩ := wfb_dir_iff.mp hwfs
    obtain ⟨hd_des, hw_des⟩ := wfb_dir_iff.mp hwfd
    rw [mem_visibleEntries_dir, mem_visibleEntries_dir]
    constructor
    · rintro ⟨n, e, hmem, hig, hx⟩
      obtain ⟨hnone_imp, hkind⟩ := hex n e hmem hig
      rcases hfs : findE ses n with _ | sE
      · have habs := hnone_imp hfs
        simp at habs
      · have hsmem : (n, sE) ∈ ses := mem_of_findE hfs
        have hk := hkind sE hfs
        have hfde : findE des n = some e := findE_eq_of_mem hd_des hmem
        rcases hx with rfl | hxin
        · rcases e with ⟨c', mt'⟩ | des2
          · rcases sE with ⟨cs, mts⟩ | sces
            · obtain ⟨c'', mt'', hfd2, hh2⟩ := hfile n cs mts hsmem hig
              rw [hfde] at hfd2
              simp only [Option.some.injEq, FsTree.file.injEq] at hfd2
              refine ⟨n, .file cs mts, hsmem, hig, Or.inl ?_⟩
              rw [← hfd2.1] at hh2
              simp [digestOf, isDirT, hh2]
            · simp [isDirT] at hk
          · rcases sE with ⟨cs, mts⟩ | sces
            · simp [isDirT] at hk
            · exact ⟨n, .dir sces, hsmem, hig, Or.inl (by simp [isDirT, digestOf])⟩
        · rcases e with ⟨c', mt'⟩ | des2
          · rw [visibleEntries_file] at hxin
            simp at hxin
          · rcases sE with ⟨cs, mts⟩ | sces
            · simp [isDirT] at hk
            · have hfd2 : findE des n = some (.dir des2) := hfde
              have hiff := IHdir n sces des2 hsmem hig hfd2
                (wfbL_mem hw_ses hsmem) (wfbL_mem hw_des hmem) x
              exact ⟨n, .dir sces, hsmem, hig, Or.inr (hiff.mp hxin)⟩
    · rintro ⟨n, sE, hmem, hig, hx⟩
      rcases sE with ⟨cs, mts⟩ | sces
      · obtain ⟨c'', mt'', hfd2, hh2⟩ := hfile n cs mts hmem hig
        have hdmem : (n, .file c'' mt'') ∈ des := mem_of_findE hfd2
        rcases hx with rfl | hxin
        · refine ⟨n, .file c'' mt'', hdmem, hig, Or.inl ?_⟩
          simp [digestOf, isDirT, hh2]
        · rw [visibleEntries_file] at hxin
          simp at hxin
      · obtain ⟨des2, hfd2⟩ := hdirEx n sces hmem hig
        have hdmem : (n, .dir des2) ∈ des := mem_of_findE hfd2
        have hiff := IHdir n sces des2 hmem hig hfd2
          (wfbL_mem hw_ses hmem) (wfbL_mem hw_des hdmem) x
        rcases hx with rfl | hxin
        · exact ⟨n, .dir des2, hdmem, hig, Or.inl (by simp [isDirT, digestOf])⟩
        · exact ⟨n, .dir des2, hdmem, hig, Or.inr (hiff.mpr hxin)⟩

/-- C1 counterexample: the mirroring postcondition does not hold for
every destination tree as claimed.  With `deleteExtraneous` false (the
default) a successful sync of an empty source over a destination that
contains `extra` leaves `extra` in place, so the set of non-ignored
destination paths differs from the source's. -/
theorem C1_counterexample :
    (sync (fun s => s) false none (some (FsTree.dir []))
        (some (FsTree.dir [("extra", FsTree.file "x" 0)]))).err = none ∧
    (sync (fun s => s) false none (some (FsTree.dir []))
        (some (FsTree.dir [("extra", FsTree.file "x" 0)]))).dst =
      some (FsTree.dir [("extra", FsTree.file "x" 0)]) ∧
    (["extra"], false, some ((fun s : String => s) "x")) ∈
      visibleEntries (fun s => s) none [] (FsTree.dir [("extra", FsTree.file "x" 0)]) ∧
    ¬ ((["extra"], false, some ((fun s : String => s) "x")) ∈
      visibleEntries (fun s => s) none [] (FsTree.dir [])) := by
  refine ⟨?_, ?_, ?_, ?_⟩
  · simp [sync, syncFolder, syncChildren, syncFiles, removeAll, updateFile,
      toBeRemovedFileNames, toBeAddedFileNames, toBeAddedFolderPairs, findE, setEntry,
      isIgnored, isDirT, List.filter, List.find?]
  · simp [sync, syncFolder, syncChildren, syncFiles, removeAll, updateFile,
      toBeRemovedFileNames, toBeAddedFileNames, toBeAddedFolderPairs, findE, setEntry,
      isIgnored, isDirT, List.filter, List.find?]
  · simp [visibleEntries, visibleL, isIgnored, digestOf, isDirT]
  · simp [visibleEntries, visibleL]

/-- C1 (amended): mirroring postcondition with `deleteExtraneous = true`.
After a successful `sync` of well-formed trees, the set of non-ignored
root-relative paths (with their kinds and digests) under the destination
equals that of the source: in particular every mirrored file's digest
equals its source counterpart's digest. -/
theorem C1_mirroring (h : String → String) (globs : Option (List String))
    (src dst : Option FsTree) (hws : wfbO src = true) (hwd : wfbO dst = true)
    (hsucc : (sync h true globs src dst).err = none) :
    ∃ ses des', src = some (.dir ses) ∧
      (sync h true globs src dst).dst = some (.dir des') ∧
      ∀ x, x ∈ visibleEntries h globs [] (.dir des') ↔
        x ∈ visibleEntries h globs [] (.dir ses) := by
  rcases src with _ | t
  · rw [sync, syncFolder] at hsucc
    simp at hsucc
  · rcases t with ⟨c, mt⟩ | ses
    · rw [sync, syncFolder] at hsucc
      simp at hsucc
    · obtain ⟨des, heq_run, hwfdes⟩ : ∃ des,
          sync h true globs (some (.dir ses)) dst =
            syncFolder h true globs (some (.dir ses)) (some (.dir des)) [] ∧
          wfb (.dir des) = true := by
        rcases dst with _ | t2
        · exact ⟨[], by rw [sync, syncFolder_none_eq], wfb_nil⟩
        · rcases t2 with ⟨c2, mt2⟩ | des
          · rw [sync, syncFolder] at hsucc
            simp at hsucc
          · exact ⟨des, by rw [sync], hwd⟩
      rw [heq_run] at hsucc ⊢
      obtain ⟨r1err, des', hdst1, hwf1, hsync1⟩ :=
        syncFolder_ok (sizeOf (FsTree.dir ses)) ses (Nat.le_refl _) des [] h true
          globs hws hwfdes
      exact ⟨ses, des', rfl, hdst1, synced_visible h globs [] _ _ hsync1 hws hwf1⟩

/-- Witness for C1 at concrete trees: syncing `{a}` over `{b}` with
`deleteExtraneous` succeeds and mirrors the visible entries. -/
theorem C1_mirroring_witness :
    wfbO (some (FsTree.dir [("a", FsTree.file "x" 0)])) = true ∧
    wfbO (some (FsTree.dir [("b", FsTree.file "y" 1)])) = true ∧
    (sync (fun s => s) true none (some (.dir [("a", .file "x" 0)]))
      (some (.dir [("b", .file "y" 1)]))).err = none ∧
    ∃ ses des', (some (FsTree.dir [("a", FsTree.file "x" 0)]) : Option FsTree) =
        some (.dir ses) ∧
      (sync (fun s => s) true none (some (.dir [("a", .file "x" 0)]))
        (some (.dir [("b", .file "y" 1)]))).dst = some (.dir des') ∧
      ∀ x, x ∈ visibleEntries (fun s => s) none [] (.dir des') ↔
        x ∈ visibleEntries (fun s => s) none [] (.dir ses) := by
  have h1 : wfbO (some (FsTree.dir [("a", FsTree.file "x" 0)])) = true := by
    simp [wfbO, wfb, wfbL, distinctNames]
  have h2 : wfbO (some (FsTree.dir [("b", FsTree.file "y" 1)])) = true := by
    simp [wfbO, wfb, wfbL, distinctNames]
  have h3 : (sync (fun s => s) true none (some (.dir [("a", .file "x" 0)]))
      (some (.dir [("b", .file "y" 1)]))).err = none := by
    simp [sync, syncFolder, syncChildren, syncFiles, removeAll, updateFile,
      toBeRemovedFileNames, toBeAddedFileNames, toBeAddedFolderPairs, findE, setEntry,
      isIgnored, isDirT, List.filter, List.find?]
  exact ⟨h1, h2, h3, C1_mirroring (fun s => s) none _ _ h1 h2 h3⟩

/-- C2: idempotence.  With no intervening change, running `sync` again
over the result of a successful run leaves the destination tree
identical, succeeds, and performs no copy and no removal (every file
reconciliation takes the equal-digest no-op branch; removal
classification marks nothing). -/
theorem C2_idempotent (h : String → String) (de : Bool) (globs : Option (List String))
    (src dst : Option FsTree) (hws : wfbO src = true) (hwd : wfbO dst = true)
    (hsucc : (sync h de globs src dst).err = none) :
    (sync h de globs src (sync h de globs src dst).dst).dst =
      (sync h de globs src dst).dst ∧
    (sync h de globs src (sync h de globs src dst).dst).err = none ∧
    ∀ op ∈ (sync h de globs src (sync h de globs src dst).dst).trace,
      op.isCopy = false ∧ op.isRemove = false := by
  rcases src with _ | t
  · rw [sync, syncFolder] at hsucc
    simp at hsucc
  · rcases t with ⟨c, mt⟩ | ses
    · rw [sync, syncFolder] at hsucc
      simp at hsucc
    · obtain ⟨des, heq_run, hwfdes⟩ : ∃ des,
          sync h de globs (some (.dir ses)) dst =
            syncFolder h de globs (some (.dir ses)) (some (.dir des)) [] ∧
          wfb (.dir des) = true := by
        rcases dst with _ | t2
        · exact ⟨[], by rw [sync, syncFolder_none_eq], wfb_nil⟩
        · rcases t2 with ⟨c2, mt2⟩ | des
          · rw [sync, syncFolder] at hsucc
            simp at hsucc
          · exact ⟨des, by rw [sync], hwd⟩
      rw [heq_run] at hsucc ⊢
      obtain ⟨r1err, des', hdst1, hwf1, hsync1⟩ :=
        syncFolder_ok (sizeOf (FsTree.dir ses)) ses (Nat.le_refl _) des [] h de
          globs hws hwfdes
      rw [hdst1]
      obtain ⟨r2err, r2dst, r2tr⟩ :=
        synced_noop (sizeOf (FsTree.dir ses)) ses (Nat.le_refl _) des' [] h de
          globs hws hsync1
      rw [sync]
      exact ⟨by rw [r2dst], r2err, r2tr⟩

/-- Witness for C2 at concrete trees: the second run over the result of
the first is an identity run with no copy and no removal. -/
theorem C2_idempotent_witness :
    wfbO (some (FsTree.dir [("a", FsTree.file "x" 0)])) = true ∧
    wfbO (none : Option FsTree) = true ∧
    (sync (fun s => s) true none (some (.dir [("a", .file "x" 0)])) none).err = none ∧
    ((sync (fun s => s) true none (some (.dir [("a", .file "x" 0)]))
        (sync (fun s => s) true none (some (.dir [("a", .file "x" 0)])) none).dst).dst =
      (sync (fun s => s) true none (some (.dir [("a", .file "x" 0)])) none).dst ∧
    (sync (fun s => s) true none (some (.dir [("a", .file "x" 0)]))
        (sync (fun s => s) true none (some (.dir [("a", .file "x" 0)])) none).dst).err =
      none ∧
    ∀ op ∈ (sync (fun s => s) true none (some (.dir [("a", .file "x" 0)]))
        (sync (fun s => s) true none (some (.dir [("a", .file "x" 0)])) none).dst).trace,
      op.isCopy = false ∧ op.isRemove = false) := by
  have h1 : wfbO (some (FsTree.dir [("a", FsTree.file "x" 0)])) = true := by
    simp [wfbO, wfb, wfbL, distinctNames]
  have h2 : wfbO (none : Option FsTree) = true := rfl
  have h3 : (sync (fun s => s) true none
      (some (.dir [("a", .file "x" 0)])) none).err = none := by
    simp [sync, syncFolder, syncChildren, syncFiles, removeAll, updateFile,
      toBeRemovedFileNames, toBeAddedFileNames, toBeAddedFolderPairs, findE, setEntry,
      isIgnored, isDirT, List.filter, List.find?]
  exact ⟨h1, h2, h3, C2_idempotent (fun s => s) true none _ _ h1 h2 h3⟩

/-- Witness for C5 at a concrete input: a successful visit decomposes
into header, removals, file updates, then recursion. -/
theorem C5_phaseOrdering_witness :
    (syncFolder (fun s => s) false none
        (some (.dir [("a", FsTree.file "x" 0)])) none []).err = none ∧
    ∃ t1 t2 t3,
      (syncFolder (fun s => s) false none
          (some (.dir [("a", FsTree.file "x" 0)])) none []).trace =
        [FsOp.listDir .src [], .ensureDir .dst [], .listDir .dst []] ++
          t1 ++ t2 ++ t3 ∧
      (∀ op ∈ t1, ∃ m, op = FsOp.removeEntry .dst ([] ++ [m])) ∧
      (∀ op ∈ t2, ∃ m, m ∈ toBeAddedFileNames none [] [("a", FsTree.file "x" 0)] ∧
        (op = FsOp.hashFile .src ([] ++ [m]) ∨ op = .existsCheck .dst ([] ++ [m]) ∨
          op = .hashFile .dst ([] ++ [m]) ∨ op = .copyFile .src .dst ([] ++ [m]))) ∧
      (∀ op ∈ t3, ∃ m, m ∈ entryNames (toBeAddedFolderPairs none [] [("a", FsTree.file "x" 0)]) ∧
        isUnder ([] ++ [m]) op.path = true) := by
  have h3 : (syncFolder (fun s => s) false none
      (some (.dir [("a", FsTree.file "x" 0)])) none []).err = none := by
    simp [syncFolder, syncChildren, syncFiles, removeAll, updateFile,
      toBeRemovedFileNames, toBeAddedFileNames, toBeAddedFolderPairs, findE, setEntry,
      isIgnored, isDirT, List.filter, List.find?]
  exact ⟨h3, C5_phaseOrdering (fun s => s) false none _ none [] h3⟩
